import Mathlib

/-!
Verification of the `tc` expression-language engine.

The development shallowly embeds the repository's code:

* `src/parse.rs` is present and is embedded faithfully: `Token` (reconstructed
  from its usage, since `token.rs` is not in the source tree), `Func`, `Expr`,
  `ParseErr`, `Expr.format`, and the recursive-descent parser
  (`expression`/`term`/`factor`/`exponent`/`negative`/`primary`, together with
  the helpers `at_end`/`peek`/`advance`/`check`/`consume`).  The parser is
  modelled as functions from the list of not-yet-consumed tokens; an
  out-of-bounds index access (a Rust panic) is modelled by the explicit
  result `PRes.crash`.
* `src/app.rs` is present and `App::eval` is embedded faithfully.  The
  tokenizer, the statement-level parser and the interpreter it calls live in
  files that are not in the source tree (`token.rs`, `interpreter.rs`); those
  parts are modelled from the spec and marked `Modelled from the spec:` in
  their doc comments.

Numbers: the code computes with IEEE `f64`.  The embedding uses `ℚ`;
every arithmetic fact proved below only involves values on which `f64`
arithmetic is exact.  IEEE special values (`inf`/`NaN`) are not
representable in `ℚ`; the few operations that would produce them are
mapped to `0` and are documented at their definition sites.  No claim
below depends on those values.
-/

namespace Tc

/-- Token vocabulary.  The first twelve variants are reconstructed from their
usage in `src/parse.rs` (`token.rs` itself is not in the source tree); the
variants `Ident`, `LetKw`, `FnKw`, `Comma` and `Equal` are
`Modelled from the spec:` §3 infers keyword tokens for `let` and `fn`, an
identifier token for multi-character names, and a comma separator. -/
inductive Token : Type where
  | Num (q : ℚ)
  | Plus
  | Minus
  | Mult
  | Div
  | Mod
  | Power
  | LParen
  | RParen
  | Pipe
  | Var (c : Char)
  | Func (name : String)
  | Ident (name : String)
  | LetKw
  | FnKw
  | Comma
  | Equal
  | Eoe
  deriving DecidableEq, Repr

/-- Built-in unary functions, from `src/parse.rs` (`enum Func`). -/
inductive Func : Type where
  | Sin
  | Cos
  | Tan
  | Ln
  | Log (base : ℚ)
  deriving DecidableEq, Repr

/-- The AST, from `src/parse.rs` (`enum Expr`).  The variants `Ident` and
`Call` are `Modelled from the spec:` §3 requires a `Call(name, args)` variant
and §4.3 an evaluation-time bare-identifier reference; both are needed by the
statement-level language of `src/app.rs`, whose parser version is not in the
source tree. -/
inductive Expr : Type where
  | Binary (lhs : Expr) (op : Token) (rhs : Expr)
  | Grouping (e : Expr)
  | Num (q : ℚ)
  | Negative (e : Expr)
  | Abs (e : Expr)
  | Exponent (base e : Expr)
  | Func (f : Func) (arg : Expr)
  | Ident (name : String)
  | Call (name : String) (args : List Expr)

mutual

/-- Structural equality on `Expr`, modelling the derived `PartialEq` used by
`expr_history.contains` in `src/app.rs`. -/
def Expr.beq : Expr → Expr → Bool
  | .Binary l₁ o₁ r₁, .Binary l₂ o₂ r₂ => l₁.beq l₂ && o₁ == o₂ && r₁.beq r₂
  | .Grouping a, .Grouping b => a.beq b
  | .Num a, .Num b => a == b
  | .Negative a, .Negative b => a.beq b
  | .Abs a, .Abs b => a.beq b
  | .Exponent a₁ b₁, .Exponent a₂ b₂ => a₁.beq a₂ && b₁.beq b₂
  | .Func f₁ a₁, .Func f₂ a₂ => f₁ == f₂ && a₁.beq a₂
  | .Ident a, .Ident b => a == b
  | .Call n₁ a₁, .Call n₂ a₂ => n₁ == n₂ && Expr.beqList a₁ a₂
  | _, _ => false

/-- Pointwise `Expr.beq` on argument lists. -/
def Expr.beqList : List Expr → List Expr → Bool
  | [], [] => true
  | x :: xs, y :: ys => x.beq y && Expr.beqList xs ys
  | _, _ => false

end

instance : BEq Expr := ⟨Expr.beq⟩

/-- Parse errors, from `src/parse.rs` (`struct ParseErr`). -/
structure ParseErr : Type where
  token : Token
  msg : String
  deriving DecidableEq, Repr

/-- Statements.  `Modelled from the spec:` §3 — the parse result is exactly one
of a bare expression, an assignment, or a function declaration
(`interpreter.rs`, which declares `Stmt`, is not in the source tree). -/
inductive Stmt : Type where
  | Expr (e : Expr)
  | Assign (name : String) (e : Expr)
  | Fn (name : String) (params : List String) (body : Expr)

/-- Runtime values.  `Modelled from the spec:` §3 — currently only `Num(f64)`
(`interpreter.rs` is not in the source tree). -/
inductive Value : Type where
  | Num (q : ℚ)
  deriving DecidableEq, Repr

/-! ### Decimal printing of numbers

`Expr::format` prints a numeric literal with `num.to_string()` (Rust `f64`
`Display`).  For values that are nonnegative integers this prints the plain
decimal digits, which is all the round-trip theorems below rely on.  For the
remaining values the model prints `-` for the sign and a terminating decimal
expansion of the fraction (every `f64` is a dyadic rational, so its decimal
expansion terminates; the fuel below is large enough for every such value). -/

/-- The decimal digit character for `n % 10`. -/
def digitChar (n : ℕ) : Char := Char.ofNat (48 + n % 10)

/-- Decimal digits of a positive natural number (most significant first). -/
def natDigits : ℕ → List Char
  | 0 => []
  | n + 1 => natDigits ((n + 1) / 10) ++ [digitChar ((n + 1) % 10)]
decreasing_by exact Nat.div_lt_self (Nat.succ_pos n) (by norm_num)

/-- Decimal representation of a natural number. -/
def natChars (n : ℕ) : List Char := if n = 0 then ['0'] else natDigits n

/-- Digits after the decimal point of `num / den` (with `num < den`),
produced by repeated multiplication by 10; `fuel` bounds the number of
digits.  For dyadic rationals (every `f64` value) the expansion terminates
before any reasonable fuel runs out. -/
def fracDigits : ℕ → ℕ → ℕ → List Char
  | 0, _, _ => []
  | _, 0, _ => []
  | fuel + 1, num, den =>
    let q := num * 10 / den
    let r := num * 10 % den
    digitChar q :: fracDigits fuel r den

/-- Decimal representation of a rational, modelling Rust's `f64` `Display`:
integers print without a fractional part, other values with one. -/
def ratChars (q : ℚ) : List Char :=
  (if q < 0 then ['-'] else []) ++
    natChars q.num.natAbs ++
      (if q.den = 1 then []
       else '.' :: fracDigits (q.den + 1) (q.num.natAbs % q.den) q.den)

/-- Display form of an operator token, from the `Display` instance used by
`Expr::format` for `Binary` nodes. -/
def Token.fmtChars : Token → List Char
  | .Num q => ratChars q
  | .Plus => ['+']
  | .Minus => ['-']
  | .Mult => ['*']
  | .Div => ['/']
  | .Mod => ['%']
  | .Power => ['^']
  | .LParen => ['(']
  | .RParen => [')']
  | .Pipe => ['|']
  | .Var c => [c]
  | .Func name => name.data
  | .Ident name => name.data
  | .LetKw => ['l', 'e', 't']
  | .FnKw => ['f', 'n']
  | .Comma => [',']
  | .Equal => ['=']
  | .Eoe => []

/-- Display form of a built-in function name, from `impl Display for Func`
in `src/parse.rs`; `Log(base)` prints as `log(<base>)`. -/
def Func.fmtChars : Func → List Char
  | .Sin => ['s', 'i', 'n']
  | .Cos => ['c', 'o', 's']
  | .Tan => ['t', 'a', 'n']
  | .Ln => ['l', 'n']
  | .Log base => ['l', 'o', 'g', '('] ++ ratChars base ++ [')']

mutual

/-- `Expr::format` from `src/parse.rs`, as a character list (the Rust code
builds a `String`; the tokenizer consumes `&[char]`, so the model works with
character lists throughout).  The `Ident` and `Call` cases are
`Modelled from the spec:` (persistence round-trips through the same textual
form, §6). -/
def Expr.fmtChars : Expr → List Char
  | .Num q => ratChars q
  | .Negative e => '-' :: e.fmtChars
  | .Grouping e => '(' :: (e.fmtChars ++ [')'])
  | .Abs e => '|' :: (e.fmtChars ++ ['|'])
  | .Binary l op r => l.fmtChars ++ (op.fmtChars ++ r.fmtChars)
  | .Exponent b e => b.fmtChars ++ ('^' :: e.fmtChars)
  | .Func f arg => f.fmtChars ++ ('(' :: (arg.fmtChars ++ [')']))
  | .Ident name => name.data
  | .Call name args => name.data ++ ('(' :: (fmtArgs args ++ [')']))

/-- Argument list of a `Call`, comma separated. -/
def fmtArgs : List Expr → List Char
  | [] => []
  | [e] => e.fmtChars
  | e :: rest => e.fmtChars ++ (',' :: fmtArgs rest)

end

/-- `Expr::format` returning a `String`, matching the Rust signature. -/
def Expr.format (e : Expr) : String := ⟨e.fmtChars⟩

/-! ### Tokenizer

`Modelled from the spec:` §4.1 — `token.rs` is not in the source tree.  A
character sequence becomes a token sequence terminated by exactly one `Eoe`
sentinel.  Whitespace is skipped.  Numeric literals are maximal digit /
decimal-point runs; a malformed numeral is a tokenizer error.  Multi-character
identifiers are maximal letter-then-letter/digit runs, classified as keyword
(`let`, `fn`), built-in function name, or generic identifier.  Single-character
operators and delimiters map one-to-one.  An unrecognized character is a
tokenizer error.  (The narrower single-letter `Var` token of the char-keyed
substitution path of `src/parse.rs` is produced by a separate caller with its
own letter→value map, not by this line tokenizer; identifiers of every length
are classified as `Ident` here so that named variables resolve at evaluation
time, per §9.) -/

/-- A character of a numeric-literal run. -/
def isNumChar (c : Char) : Bool := c.isDigit || c == '.'

/-- A character that may continue an identifier. -/
def isIdentChar (c : Char) : Bool := c.isAlphanum

/-- Value of a digit run (most significant first). -/
def digitsVal (l : List Char) : ℕ := l.foldl (fun acc c => acc * 10 + (c.toNat - 48)) 0

/-- The names of the built-in functions (`FUNCS` in `src/parse.rs`). -/
def funcNames : List String := ["cos", "sin", "tan", "log", "ln"]

/-- Numeric value of a maximal digit/dot run, or `none` when the run is not a
well-formed numeral (several dots, or no digits at all), modelling Rust's
`str::parse::<f64>` on such runs. -/
def numVal (run : List Char) : Option ℚ :=
  if run.all Char.isDigit then
    if run.isEmpty then none else some (digitsVal run)
  else
    match run.splitOn '.' with
    | [intPart, fracPart] =>
      if intPart.isEmpty && fracPart.isEmpty then none
      else some ((digitsVal intPart : ℚ) + digitsVal fracPart / 10 ^ fracPart.length)
    | _ => none

/-- Classification of an identifier run: keyword, built-in function name, or
generic identifier. -/
def classifyIdent (s : String) : Token :=
  if s = "let" then Token.LetKw
  else if s = "fn" then Token.FnKw
  else if s ∈ funcNames then Token.Func s
  else Token.Ident s

theorem dropWhile_length_le {α : Type} (p : α → Bool) :
    ∀ l : List α, (l.dropWhile p).length ≤ l.length := by
  intro l
  induction l with
  | nil => simp
  | cons x xs ih =>
    rw [List.dropWhile_cons]
    split
    · exact le_trans ih (Nat.le_succ _)
    · simp

/-- Tokenizer body: characters to tokens, without the final sentinel. -/
def tokenizeCore : List Char → Except String (List Token)
  | [] => .ok []
  | c :: cs =>
    if c.isWhitespace then tokenizeCore cs
    else if isNumChar c then
      match numVal (c :: cs.takeWhile isNumChar) with
      | some q => (tokenizeCore (cs.dropWhile isNumChar)).map (Token.Num q :: ·)
      | none => .error "Malformed numeral"
    else if c.isAlpha then
      (tokenizeCore (cs.dropWhile isIdentChar)).map
        (classifyIdent ⟨c :: cs.takeWhile isIdentChar⟩ :: ·)
    else if c = '+' then (tokenizeCore cs).map (Token.Plus :: ·)
    else if c = '-' then (tokenizeCore cs).map (Token.Minus :: ·)
    else if c = '*' then (tokenizeCore cs).map (Token.Mult :: ·)
    else if c = '/' then (tokenizeCore cs).map (Token.Div :: ·)
    else if c = '%' then (tokenizeCore cs).map (Token.Mod :: ·)
    else if c = '^' then (tokenizeCore cs).map (Token.Power :: ·)
    else if c = '(' then (tokenizeCore cs).map (Token.LParen :: ·)
    else if c = ')' then (tokenizeCore cs).map (Token.RParen :: ·)
    else if c = '|' then (tokenizeCore cs).map (Token.Pipe :: ·)
    else if c = ',' then (tokenizeCore cs).map (Token.Comma :: ·)
    else if c = '=' then (tokenizeCore cs).map (Token.Equal :: ·)
    else .error "Unrecognized character"
termination_by l => l.length
decreasing_by
  all_goals simp only [List.length_cons]
  all_goals first
    | exact Nat.lt_succ_of_le (dropWhile_length_le _ _)
    | exact Nat.lt_succ_self _

/-- The tokenizer: appends the single end-of-expression sentinel. -/
def tokenize (cs : List Char) : Except String (List Token) :=
  (tokenizeCore cs).map (· ++ [Token.Eoe])

/-! ### The parser of `src/parse.rs`

The Rust parser holds `tokens: Vec<Token>` and an index `current`; each
method peeks at `tokens[current]` and advances.  The model represents the
parser state by the list of not-yet-consumed tokens.  `peek` on an empty
list — `tokens[self.current]` with the index out of bounds, a Rust panic —
is the explicit result `crash`.  Error results abort the whole parse (Rust
`?`), so the tokens consumed before an error are not observable and error
results carry no remainder list. -/

/-- Result of one parsing method: `Ok(expr)` (with the tokens left over),
`Err(ParseErr)`, or an out-of-bounds-index panic. -/
inductive PRes : Type where
  | ok (e : Expr) (rest : List Token)
  | perr (err : ParseErr)
  | crash

/-- A successful result left strictly fewer tokens than the input had. -/
def POk (ts : List Token) (r : PRes) : Prop :=
  ∀ e rest, r = .ok e rest → rest.length < ts.length

/-- A successful result left at most as many tokens as the input had. -/
def POkLe (ts : List Token) (r : PRes) : Prop :=
  ∀ e rest, r = .ok e rest → rest.length ≤ ts.length

/-- A parse result that is known to strictly consume input. -/
def PR (ts : List Token) : Type := {r : PRes // POk ts r}

/-- A parse result that is known not to lengthen its input (loop bodies). -/
def PRL (ts : List Token) : Type := {r : PRes // POkLe ts r}

def PR.err {ts : List Token} (e : ParseErr) : PR ts :=
  ⟨.perr e, fun _ _ h => nomatch h⟩

def PR.crash {ts : List Token} : PR ts :=
  ⟨.crash, fun _ _ h => nomatch h⟩

def PR.ok {ts : List Token} (e : Expr) (rest : List Token)
    (h : rest.length < ts.length) : PR ts :=
  ⟨.ok e rest, fun _ _ hr => by cases hr; exact h⟩

def PRL.err {ts : List Token} (e : ParseErr) : PRL ts :=
  ⟨.perr e, fun _ _ h => nomatch h⟩

def PRL.crash {ts : List Token} : PRL ts :=
  ⟨.crash, fun _ _ h => nomatch h⟩

def PRL.ok {ts : List Token} (e : Expr) (rest : List Token)
    (h : rest.length ≤ ts.length) : PRL ts :=
  ⟨.ok e rest, fun _ _ hr => by cases hr; exact h⟩

/-- Transport a strict result along a strict shrinking of the input. -/
def PR.widen {ts ts' : List Token} (h : ts'.length < ts.length) : PR ts' → PR ts
  | ⟨.ok e rest, hp⟩ => PR.ok e rest (lt_trans (hp _ _ rfl) h)
  | ⟨.perr er, _⟩ => PR.err er
  | ⟨.crash, _⟩ => PR.crash

/-- Result of parsing a call's argument list (spec-modelled). -/
inductive ARes : Type where
  | ok (args : List Expr) (rest : List Token)
  | perr (err : ParseErr)
  | crash

/-- Argument-list results strictly consume input. -/
def AOk (ts : List Token) (r : ARes) : Prop :=
  ∀ a rest, r = .ok a rest → rest.length < ts.length

/-- An argument-list parse result with its consumption bound. -/
def AR (ts : List Token) : Type := {r : ARes // AOk ts r}

def AR.err {ts : List Token} (e : ParseErr) : AR ts :=
  ⟨.perr e, fun _ _ h => nomatch h⟩

def AR.crash {ts : List Token} : AR ts :=
  ⟨.crash, fun _ _ h => nomatch h⟩

def AR.ok {ts : List Token} (a : List Expr) (rest : List Token)
    (h : rest.length < ts.length) : AR ts :=
  ⟨.ok a rest, fun _ _ hr => by cases hr; exact h⟩

/-- Transport an argument-list result along a strict shrinking of the input. -/
def AR.widen {ts ts' : List Token} (h : ts'.length < ts.length) : AR ts' → AR ts
  | ⟨.ok a rest, hp⟩ => AR.ok a rest (lt_trans (hp _ _ rfl) h)
  | ⟨.perr er, _⟩ => AR.err er
  | ⟨.crash, _⟩ => AR.crash

/-- The letter→value substitution map supplied to `Parser::new`
(`HashMap<char, f64>` in the source; an association list here). -/
def Vals : Type := List (Char × ℚ)

mutual

/-- `Parser::expression` (src/parse.rs lines 144–146): delegates to `term`. -/
def expression (vals : Vals) (ts : List Token) : PR ts :=
  term vals ts

termination_by (ts.length, 6)
decreasing_by
  all_goals simp_wf
  all_goals simp only [Prod.lex_def, true_and, and_true, List.length_cons]
  all_goals
    first
      | omega
      | (have hlt := hp _ _ rfl
         simp only [List.length_cons] at hlt ⊢
         omega)

/-- `Parser::term` (lines 148–156): one factor, then a left-folding
`+`/`-` loop. -/
def term (vals : Vals) (ts : List Token) : PR ts :=
  match factor vals ts with
  | ⟨.ok e rest, hp⟩ =>
    match termLoop vals e rest with
    | ⟨.ok e₂ rest₂, hq⟩ =>
      PR.ok e₂ rest₂ (lt_of_le_of_lt (hq _ _ rfl) (hp _ _ rfl))
    | ⟨.perr er, _⟩ => PR.err er
    | ⟨.crash, _⟩ => PR.crash
  | ⟨.perr er, _⟩ => PR.err er
  | ⟨.crash, _⟩ => PR.crash

termination_by (ts.length, 5)
decreasing_by
  all_goals simp_wf
  all_goals simp only [Prod.lex_def, true_and, and_true, List.length_cons]
  all_goals
    first
      | omega
      | (have hlt := hp _ _ rfl
         simp only [List.length_cons] at hlt ⊢
         omega)

/-- The `while` loop of `Parser::term`: as long as the next token is `+` or
`-`, consume it, parse a factor, and left-fold into a `Binary` node. -/
def termLoop (vals : Vals) (acc : Expr) (ts : List Token) : PRL ts :=
  match ts with
  | [] => PRL.crash
  | t :: rest =>
    if t = Token.Plus ∨ t = Token.Minus then
      match factor vals rest with
      | ⟨.ok e rest₂, hp⟩ =>
        match termLoop vals (Expr.Binary acc t e) rest₂ with
        | ⟨.ok e₃ rest₃, hq⟩ =>
          PRL.ok e₃ rest₃
            (by
              have h₁ := hq _ _ rfl
              have h₂ := hp _ _ rfl
              simp only [List.length_cons]
              omega)
        | ⟨.perr er, _⟩ => PRL.err er
        | ⟨.crash, _⟩ => PRL.crash
      | ⟨.perr er, _⟩ => PRL.err er
      | ⟨.crash, _⟩ => PRL.crash
    else PRL.ok acc (t :: rest) (le_refl _)

termination_by (ts.length, 0)
decreasing_by
  all_goals simp_wf
  all_goals simp only [Prod.lex_def, true_and, and_true, List.length_cons]
  all_goals
    first
      | omega
      | (have hlt := hp _ _ rfl
         simp only [List.length_cons] at hlt ⊢
         omega)

/-- `Parser::factor` (lines 158–166): one exponent-expression, then a
left-folding `/`, `*`, `%` loop. -/
def factor (vals : Vals) (ts : List Token) : PR ts :=
  match exponent vals ts with
  | ⟨.ok e rest, hp⟩ =>
    match factorLoop vals e rest with
    | ⟨.ok e₂ rest₂, hq⟩ =>
      PR.ok e₂ rest₂ (lt_of_le_of_lt (hq _ _ rfl) (hp _ _ rfl))
    | ⟨.perr er, _⟩ => PR.err er
    | ⟨.crash, _⟩ => PR.crash
  | ⟨.perr er, _⟩ => PR.err er
  | ⟨.crash, _⟩ => PR.crash

termination_by (ts.length, 4)
decreasing_by
  all_goals simp_wf
  all_goals simp only [Prod.lex_def, true_and, and_true, List.length_cons]
  all_goals
    first
      | omega
      | (have hlt := hp _ _ rfl
         simp only [List.length_cons] at hlt ⊢
         omega)

/-- The `while` loop of `Parser::factor`. -/
def factorLoop (vals : Vals) (acc : Expr) (ts : List Token) : PRL ts :=
  match ts with
  | [] => PRL.crash
  | t :: rest =>
    if t = Token.Div ∨ t = Token.Mult ∨ t = Token.Mod then
      match exponent vals rest with
      | ⟨.ok e rest₂, hp⟩ =>
        match factorLoop vals (Expr.Binary acc t e) rest₂ with
        | ⟨.ok e₃ rest₃, hq⟩ =>
          PRL.ok e₃ rest₃
            (by
              have h₁ := hq _ _ rfl
              have h₂ := hp _ _ rfl
              simp only [List.length_cons]
              omega)
        | ⟨.perr er, _⟩ => PRL.err er
        | ⟨.crash, _⟩ => PRL.crash
      | ⟨.perr er, _⟩ => PRL.err er
      | ⟨.crash, _⟩ => PRL.crash
    else PRL.ok acc (t :: rest) (le_refl _)

termination_by (ts.length, 0)
decreasing_by
  all_goals simp_wf
  all_goals simp only [Prod.lex_def, true_and, and_true, List.length_cons]
  all_goals
    first
      | omega
      | (have hlt := hp _ _ rfl
         simp only [List.length_cons] at hlt ⊢
         omega)

/-- `Parser::exponent` (lines 168–176): one unary-minus-expression, then a
left-folding `^` loop — the left fold makes `^` left-associative. -/
def exponent (vals : Vals) (ts : List Token) : PR ts :=
  match negative vals ts with
  | ⟨.ok e rest, hp⟩ =>
    match exponentLoop vals e rest with
    | ⟨.ok e₂ rest₂, hq⟩ =>
      PR.ok e₂ rest₂ (lt_of_le_of_lt (hq _ _ rfl) (hp _ _ rfl))
    | ⟨.perr er, _⟩ => PR.err er
    | ⟨.crash, _⟩ => PR.crash
  | ⟨.perr er, _⟩ => PR.err er
  | ⟨.crash, _⟩ => PR.crash

termination_by (ts.length, 3)
decreasing_by
  all_goals simp_wf
  all_goals simp only [Prod.lex_def, true_and, and_true, List.length_cons]
  all_goals
    first
      | omega
      | (have hlt := hp _ _ rfl
         simp only [List.length_cons] at hlt ⊢
         omega)

/-- The `while` loop of `Parser::exponent`: folds into `Exponent` nodes. -/
def exponentLoop (vals : Vals) (acc : Expr) (ts : List Token) : PRL ts :=
  match ts with
  | [] => PRL.crash
  | t :: rest =>
    if t = Token.Power then
      match negative vals rest with
      | ⟨.ok e rest₂, hp⟩ =>
        match exponentLoop vals (Expr.Exponent acc e) rest₂ with
        | ⟨.ok e₃ rest₃, hq⟩ =>
          PRL.ok e₃ rest₃
            (by
              have h₁ := hq _ _ rfl
              have h₂ := hp _ _ rfl
              simp only [List.length_cons]
              omega)
        | ⟨.perr er, _⟩ => PRL.err er
        | ⟨.crash, _⟩ => PRL.crash
      | ⟨.perr er, _⟩ => PRL.err er
      | ⟨.crash, _⟩ => PRL.crash
    else PRL.ok acc (t :: rest) (le_refl _)

termination_by (ts.length, 0)
decreasing_by
  all_goals simp_wf
  all_goals simp only [Prod.lex_def, true_and, and_true, List.length_cons]
  all_goals
    first
      | omega
      | (have hlt := hp _ _ rfl
         simp only [List.length_cons] at hlt ⊢
         omega)

/-- `Parser::negative` (lines 178–186): right-recursive unary minus. -/
def negative (vals : Vals) (ts : List Token) : PR ts :=
  match ts with
  | [] => PR.crash
  | Token.Minus :: rest =>
    match negative vals rest with
    | ⟨.ok e rest₂, hp⟩ =>
      PR.ok (Expr.Negative e) rest₂
        (by
          have h := hp _ _ rfl
          simp only [List.length_cons]
          omega)
    | ⟨.perr er, _⟩ => PR.err er
    | ⟨.crash, _⟩ => PR.crash
  | t :: rest => primary vals (t :: rest)

termination_by (ts.length, 2)
decreasing_by
  all_goals simp_wf
  all_goals simp only [Prod.lex_def, true_and, and_true, List.length_cons]
  all_goals
    first
      | omega
      | (have hlt := hp _ _ rfl
         simp only [List.length_cons] at hlt ⊢
         omega)

/-- `Parser::primary` (lines 188–236).  The `Num`, `LParen`, `Pipe`, `Var`
and `Func` cases transcribe the source in order.  The `Ident` case before
the final `Expected expression` error is `Modelled from the spec:` §4.2 —
calls of named functions (`Call`) and bare identifiers are recognized at the
primary level by the statement-level parser version, which is not in the
source tree. -/
def primary (vals : Vals) (ts : List Token) : PR ts :=
  match ts with
  | [] => PR.crash
  | Token.Num q :: rest => PR.ok (Expr.Num q) rest (by simp)
  | Token.LParen :: rest =>
    match expression vals rest with
    | ⟨.ok e rest₂, hp⟩ =>
      match rest₂ with
      | Token.RParen :: rest₃ =>
        PR.ok (Expr.Grouping e) rest₃
          (by
            have h := hp _ _ rfl
            simp only [List.length_cons] at h ⊢
            omega)
      | [] => PR.crash
      | _ :: _ => PR.err ⟨Token.RParen, "Missing closing parentheses"⟩
    | ⟨.perr er, _⟩ => PR.err er
    | ⟨.crash, _⟩ => PR.crash
  | Token.Pipe :: rest =>
    match expression vals rest with
    | ⟨.ok e rest₂, hp⟩ =>
      match rest₂ with
      | Token.Pipe :: rest₃ =>
        PR.ok (Expr.Abs e) rest₃
          (by
            have h := hp _ _ rfl
            simp only [List.length_cons] at h ⊢
            omega)
      | [] => PR.crash
      | _ :: _ => PR.err ⟨Token.Pipe, "Missing closing pipe"⟩
    | ⟨.perr er, _⟩ => PR.err er
    | ⟨.crash, _⟩ => PR.crash
  | Token.Var c :: rest =>
    match (vals.lookup c : Option ℚ) with
    | some q => PR.ok (Expr.Num q) rest (by simp)
    | none => PR.err ⟨Token.Var c, "Unknown variable"⟩
  | Token.Func fname :: rest =>
    if fname = "sin" then
      (funcTail vals Func.Sin rest).widen (by simp)
    else if fname = "cos" then
      (funcTail vals Func.Cos rest).widen (by simp)
    else if fname = "tan" then
      (funcTail vals Func.Tan rest).widen (by simp)
    else if fname = "ln" then
      (funcTail vals Func.Ln rest).widen (by simp)
    else if fname = "log" then
      match rest with
      | Token.Num base :: rest₂ =>
        (funcTail vals (Func.Log base) rest₂).widen
          (by simp only [List.length_cons]; omega)
      | [] => PR.crash
      | _ :: _ => PR.err ⟨Token.Func fname, "Missing base for log function"⟩
    else PR.err ⟨Token.Func fname, "Unknown function"⟩
  | Token.Ident name :: rest =>
    match rest with
    | [] => PR.ok (Expr.Ident name) [] (by simp)
    | u :: rest₂ =>
      if u = Token.LParen then
        (callTail vals name rest₂).widen
          (by simp only [List.length_cons]; omega)
      else PR.ok (Expr.Ident name) (u :: rest₂) (by simp)
  | t :: _ => PR.err ⟨t, "Expected expression"⟩

termination_by (ts.length, 1)
decreasing_by
  all_goals simp_wf
  all_goals simp only [Prod.lex_def, true_and, and_true, List.length_cons]
  all_goals
    first
      | omega
      | (have hlt := hp _ _ rfl
         simp only [List.length_cons] at hlt ⊢
         omega)

/-- The shared tail of the built-in-function case of `primary` (lines
230–233): consume `(`, parse the argument expression, consume `)`. -/
def funcTail (vals : Vals) (f : Func) (ts : List Token) : PR ts :=
  match ts with
  | [] => PR.crash
  | Token.LParen :: rest =>
    match expression vals rest with
    | ⟨.ok arg rest₂, hp⟩ =>
      match rest₂ with
      | Token.RParen :: rest₃ =>
        PR.ok (Expr.Func f arg) rest₃
          (by
            have h := hp _ _ rfl
            simp only [List.length_cons] at h ⊢
            omega)
      | [] => PR.crash
      | _ :: _ => PR.err ⟨Token.RParen, "Missing closing parentheses"⟩
    | ⟨.perr er, _⟩ => PR.err er
    | ⟨.crash, _⟩ => PR.crash
  | _ :: _ => PR.err ⟨Token.LParen, "Missing opening parentheses"⟩

termination_by (ts.length, 0)
decreasing_by
  all_goals simp_wf
  all_goals simp only [Prod.lex_def, true_and, and_true, List.length_cons]
  all_goals
    first
      | omega
      | (have hlt := hp _ _ rfl
         simp only [List.length_cons] at hlt ⊢
         omega)

/-- `Modelled from the spec:` the tail of a call of a named function, after
the opening parenthesis: either the immediate closing parenthesis (no
arguments) or the first argument expression followed by the
comma-separated rest (§4.2). -/
def callTail (vals : Vals) (name : String) (ts : List Token) : PR ts :=
  match ts with
  | [] => PR.crash
  | t :: rest =>
    if t = Token.RParen then PR.ok (Expr.Call name []) rest (by simp)
    else
      match expression vals (t :: rest) with
      | ⟨.ok a rest₂, hp⟩ =>
        match callArgs vals [a] rest₂ with
        | ⟨.ok args rest₃, hq⟩ =>
          PR.ok (Expr.Call name args) rest₃
            (lt_trans (hq _ _ rfl) (hp _ _ rfl))
        | ⟨.perr er, _⟩ => PR.err er
        | ⟨.crash, _⟩ => PR.crash
      | ⟨.perr er, _⟩ => PR.err er
      | ⟨.crash, _⟩ => PR.crash

termination_by (ts.length, 7)
decreasing_by
  all_goals simp_wf
  all_goals simp only [Prod.lex_def, true_and, and_true, List.length_cons]
  all_goals
    first
      | omega
      | (have hlt := hp _ _ rfl
         simp only [List.length_cons] at hlt ⊢
         omega)

/-- `Modelled from the spec:` the comma-separated argument expressions of a
call of a named function, terminated by the closing parenthesis (§4.2). -/
def callArgs (vals : Vals) (acc : List Expr) (ts : List Token) : AR ts :=
  match ts with
  | [] => AR.crash
  | Token.Comma :: rest =>
    match expression vals rest with
    | ⟨.ok a rest₂, hp⟩ =>
      (callArgs vals (acc ++ [a]) rest₂).widen
        (by
          have h := hp _ _ rfl
          simp only [List.length_cons]
          omega)
    | ⟨.perr er, _⟩ => AR.err er
    | ⟨.crash, _⟩ => AR.crash
  | Token.RParen :: rest => AR.ok acc rest (by simp)
  | _ :: _ => AR.err ⟨Token.RParen, "Missing closing parentheses"⟩

termination_by (ts.length, 0)
decreasing_by
  all_goals simp_wf
  all_goals simp only [Prod.lex_def, true_and, and_true, List.length_cons]
  all_goals
    first
      | omega
      | (have hlt := hp _ _ rfl
         simp only [List.length_cons] at hlt ⊢
         omega)
end

/-! ### Plain views of the parser

The subtype layer above only carries the consumption bounds needed for
termination.  All reasoning happens on the underlying `PRes` values through
the projections and unfolding equations below. -/

def runExpression (vals : Vals) (ts : List Token) : PRes := (expression vals ts).1

def runTerm (vals : Vals) (ts : List Token) : PRes := (term vals ts).1

def runTermLoop (vals : Vals) (acc : Expr) (ts : List Token) : PRes :=
  (termLoop vals acc ts).1

def runFactor (vals : Vals) (ts : List Token) : PRes := (factor vals ts).1

def runFactorLoop (vals : Vals) (acc : Expr) (ts : List Token) : PRes :=
  (factorLoop vals acc ts).1

def runExponent (vals : Vals) (ts : List Token) : PRes := (exponent vals ts).1

def runExponentLoop (vals : Vals) (acc : Expr) (ts : List Token) : PRes :=
  (exponentLoop vals acc ts).1

def runNegative (vals : Vals) (ts : List Token) : PRes := (negative vals ts).1

def runPrimary (vals : Vals) (ts : List Token) : PRes := (primary vals ts).1

def runFuncTail (vals : Vals) (f : Func) (ts : List Token) : PRes :=
  (funcTail vals f ts).1

def runCallTail (vals : Vals) (name : String) (ts : List Token) : PRes :=
  (callTail vals name ts).1

def runCallArgs (vals : Vals) (acc : List Expr) (ts : List Token) : ARes :=
  (callArgs vals acc ts).1

/-- `Parser::parse` (src/parse.rs lines 140-142): delegates to `expression`
and performs no end-of-input check. -/
def parseExpr (vals : Vals) (ts : List Token) : PRes := runExpression vals ts

theorem runExpression_eq (vals : Vals) (ts : List Token) :
    runExpression vals ts = runTerm vals ts := by
  unfold runExpression expression runTerm
  rfl

theorem runTerm_eq (vals : Vals) (ts : List Token) :
    runTerm vals ts =
      match runFactor vals ts with
      | .ok e rest => runTermLoop vals e rest
      | .perr er => .perr er
      | .crash => .crash := by
  unfold runTerm term
  rcases hf : factor vals ts with ⟨r, hr⟩
  cases r with
  | ok e rest =>
    rcases ht : termLoop vals e rest with ⟨r₂, hr₂⟩
    cases r₂ <;>
      simp [runFactor, runTermLoop, hf, ht, PR.ok, PR.err, PR.crash]
  | perr er => simp [runFactor, hf, PR.err]
  | crash => simp [runFactor, hf, PR.crash]

theorem runTermLoop_eq (vals : Vals) (acc : Expr) (ts : List Token) :
    runTermLoop vals acc ts =
      match ts with
      | [] => .crash
      | t :: rest =>
        if t = Token.Plus ∨ t = Token.Minus then
          match runFactor vals rest with
          | .ok e rest₂ => runTermLoop vals (Expr.Binary acc t e) rest₂
          | .perr er => .perr er
          | .crash => .crash
        else .ok acc (t :: rest) := by
  unfold runTermLoop
  rw [termLoop.eq_def]
  cases ts with
  | nil => simp [PRL.crash]
  | cons t rest =>
    by_cases hop : t = Token.Plus ∨ t = Token.Minus
    · simp only [hop, if_true]
      rcases hf : factor vals rest with ⟨r, hr⟩
      cases r with
      | ok e rest₂ =>
        rcases ht : termLoop vals (Expr.Binary acc t e) rest₂ with ⟨r₂, hr₂⟩
        cases r₂ <;>
          simp [runFactor, runTermLoop, hf, ht, PRL.ok, PRL.err, PRL.crash]
      | perr er => simp [runFactor, hf, PRL.err]
      | crash => simp [runFactor, hf, PRL.crash]
    · simp [hop, PRL.ok]

theorem runFactor_eq (vals : Vals) (ts : List Token) :
    runFactor vals ts =
      match runExponent vals ts with
      | .ok e rest => runFactorLoop vals e rest
      | .perr er => .perr er
      | .crash => .crash := by
  unfold runFactor factor
  rcases hf : exponent vals ts with ⟨r, hr⟩
  cases r with
  | ok e rest =>
    rcases ht : factorLoop vals e rest with ⟨r₂, hr₂⟩
    cases r₂ <;>
      simp [runExponent, runFactorLoop, hf, ht, PR.ok, PR.err, PR.crash]
  | perr er => simp [runExponent, hf, PR.err]
  | crash => simp [runExponent, hf, PR.crash]

theorem runFactorLoop_eq (vals : Vals) (acc : Expr) (ts : List Token) :
    runFactorLoop vals acc ts =
      match ts with
      | [] => .crash
      | t :: rest =>
        if t = Token.Div ∨ t = Token.Mult ∨ t = Token.Mod then
          match runExponent vals rest with
          | .ok e rest₂ => runFactorLoop vals (Expr.Binary acc t e) rest₂
          | .perr er => .perr er
          | .crash => .crash
        else .ok acc (t :: rest) := by
  unfold runFactorLoop
  rw [factorLoop.eq_def]
  cases ts with
  | nil => simp [PRL.crash]
  | cons t rest =>
    by_cases hop : t = Token.Div ∨ t = Token.Mult ∨ t = Token.Mod
    · simp only [hop, if_true]
      rcases hf : exponent vals rest with ⟨r, hr⟩
      cases r with
      | ok e rest₂ =>
        rcases ht : factorLoop vals (Expr.Binary acc t e) rest₂ with ⟨r₂, hr₂⟩
        cases r₂ <;>
          simp [runExponent, runFactorLoop, hf, ht, PRL.ok, PRL.err, PRL.crash]
      | perr er => simp [runExponent, hf, PRL.err]
      | crash => simp [runExponent, hf, PRL.crash]
    · simp [hop, PRL.ok]

theorem runExponent_eq (vals : Vals) (ts : List Token) :
    runExponent vals ts =
      match runNegative vals ts with
      | .ok e rest => runExponentLoop vals e rest
      | .perr er => .perr er
      | .crash => .crash := by
  unfold runExponent exponent
  rcases hf : negative vals ts with ⟨r, hr⟩
  cases r with
  | ok e rest =>
    rcases ht : exponentLoop vals e rest with ⟨r₂, hr₂⟩
    cases r₂ <;>
      simp [runNegative, runExponentLoop, hf, ht, PR.ok, PR.err, PR.crash]
  | perr er => simp [runNegative, hf, PR.err]
  | crash => simp [runNegative, hf, PR.crash]

theorem runExponentLoop_eq (vals : Vals) (acc : Expr) (ts : List Token) :
    runExponentLoop vals acc ts =
      match ts with
      | [] => .crash
      | t :: rest =>
        if t = Token.Power then
          match runNegative vals rest with
          | .ok e rest₂ => runExponentLoop vals (Expr.Exponent acc e) rest₂
          | .perr er => .perr er
          | .crash => .crash
        else .ok acc (t :: rest) := by
  unfold runExponentLoop
  rw [exponentLoop.eq_def]
  cases ts with
  | nil => simp [PRL.crash]
  | cons t rest =>
    by_cases hop : t = Token.Power
    · simp only [hop, if_true]
      rcases hf : negative vals rest with ⟨r, hr⟩
      cases r with
      | ok e rest₂ =>
        rcases ht : exponentLoop vals (Expr.Exponent acc e) rest₂ with ⟨r₂, hr₂⟩
        cases r₂ <;>
          simp [runNegative, runExponentLoop, hf, ht, PRL.ok, PRL.err, PRL.crash]
      | perr er => simp [runNegative, hf, PRL.err]
      | crash => simp [runNegative, hf, PRL.crash]
    · simp [hop, PRL.ok]

theorem runNegative_eq (vals : Vals) (ts : List Token) :
    runNegative vals ts =
      match ts with
      | [] => .crash
      | Token.Minus :: rest =>
        match runNegative vals rest with
        | .ok e rest₂ => .ok (Expr.Negative e) rest₂
        | .perr er => .perr er
        | .crash => .crash
      | t :: rest => runPrimary vals (t :: rest) := by
  unfold runNegative
  rw [negative.eq_def]
  cases ts with
  | nil => simp [PR.crash]
  | cons t rest =>
    cases t <;> try (simp [runPrimary]; done)
    rcases hf : negative vals rest with ⟨r, hr⟩
    cases r <;> simp [runNegative, hf, PR.ok, PR.err, PR.crash]

theorem PR_widen_val {ts ts' : List Token} (h : ts'.length < ts.length)
    (p : PR ts') : (p.widen h).1 = p.1 := by
  rcases p with ⟨r, hr⟩
  cases r <;> simp [PR.widen, PR.ok, PR.err, PR.crash]

theorem AR_widen_val {ts ts' : List Token} (h : ts'.length < ts.length)
    (p : AR ts') : (p.widen h).1 = p.1 := by
  rcases p with ⟨r, hr⟩
  cases r <;> simp [AR.widen, AR.ok, AR.err, AR.crash]

theorem runFuncTail_eq (vals : Vals) (f : Func) (ts : List Token) :
    runFuncTail vals f ts =
      match ts with
      | [] => .crash
      | Token.LParen :: rest =>
        match runExpression vals rest with
        | .ok arg rest₂ =>
          match rest₂ with
          | Token.RParen :: rest₃ => .ok (Expr.Func f arg) rest₃
          | [] => .crash
          | _ :: _ => .perr ⟨Token.RParen, "Missing closing parentheses"⟩
        | .perr er => .perr er
        | .crash => .crash
      | _ :: _ => .perr ⟨Token.LParen, "Missing opening parentheses"⟩ := by
  unfold runFuncTail funcTail
  cases ts with
  | nil => simp [PR.crash]
  | cons t rest =>
    cases t <;> try (simp [PR.err]; done)
    rcases hf : expression vals rest with ⟨r, hr⟩
    cases r with
    | ok arg rest₂ =>
      cases rest₂ with
      | nil => simp [runExpression, hf, PR.crash]
      | cons u rest₃ =>
        cases u <;>
          simp [runExpression, hf, PR.ok, PR.err, PR.crash]
    | perr er => simp [runExpression, hf, PR.err]
    | crash => simp [runExpression, hf, PR.crash]

theorem runCallArgs_eq (vals : Vals) (acc : List Expr) (ts : List Token) :
    runCallArgs vals acc ts =
      match ts with
      | [] => .crash
      | Token.Comma :: rest =>
        match runExpression vals rest with
        | .ok a rest₂ => runCallArgs vals (acc ++ [a]) rest₂
        | .perr er => .perr er
        | .crash => .crash
      | Token.RParen :: rest => .ok acc rest
      | _ :: _ => .perr ⟨Token.RParen, "Missing closing parentheses"⟩ := by
  unfold runCallArgs
  rw [callArgs.eq_def]
  cases ts with
  | nil => simp [AR.crash]
  | cons t rest =>
    cases t <;> try (simp [AR.err, AR.ok]; done)
    rcases hf : expression vals rest with ⟨r, hr⟩
    cases r with
    | ok a rest₂ =>
      simp [runExpression, hf, AR_widen_val, runCallArgs]
    | perr er => simp [runExpression, hf, AR.err]
    | crash => simp [runExpression, hf, AR.crash]

theorem runCallTail_eq (vals : Vals) (name : String) (ts : List Token) :
    runCallTail vals name ts =
      match ts with
      | [] => .crash
      | t :: rest =>
        if t = Token.RParen then .ok (Expr.Call name []) rest
        else
          match runExpression vals (t :: rest) with
          | .ok a rest₂ =>
            match runCallArgs vals [a] rest₂ with
            | .ok args rest₃ => .ok (Expr.Call name args) rest₃
            | .perr er => .perr er
            | .crash => .crash
          | .perr er => .perr er
          | .crash => .crash := by
  unfold runCallTail callTail
  cases ts with
  | nil => simp [PR.crash]
  | cons t rest =>
    dsimp only
    by_cases ht : t = Token.RParen
    · simp [ht, PR.ok]
    · rw [if_neg ht]
      rcases hf : expression vals (t :: rest) with ⟨r, hr⟩
      cases r with
      | ok a rest₂ =>
        rcases hc : callArgs vals [a] rest₂ with ⟨r₂, hr₂⟩
        cases r₂ <;>
          simp [ht, runExpression, runCallArgs, hf, hc, PR.ok, PR.err, PR.crash]
      | perr er => simp [ht, runExpression, hf, PR.err]
      | crash => simp [ht, runExpression, hf, PR.crash]

theorem runPrimary_eq (vals : Vals) (ts : List Token) :
    runPrimary vals ts =
      match ts with
      | [] => .crash
      | Token.Num q :: rest => .ok (Expr.Num q) rest
      | Token.LParen :: rest =>
        match runExpression vals rest with
        | .ok e rest₂ =>
          match rest₂ with
          | Token.RParen :: rest₃ => .ok (Expr.Grouping e) rest₃
          | [] => .crash
          | _ :: _ => .perr ⟨Token.RParen, "Missing closing parentheses"⟩
        | .perr er => .perr er
        | .crash => .crash
      | Token.Pipe :: rest =>
        match runExpression vals rest with
        | .ok e rest₂ =>
          match rest₂ with
          | Token.Pipe :: rest₃ => .ok (Expr.Abs e) rest₃
          | [] => .crash
          | _ :: _ => .perr ⟨Token.Pipe, "Missing closing pipe"⟩
        | .perr er => .perr er
        | .crash => .crash
      | Token.Var c :: rest =>
        match (vals.lookup c : Option ℚ) with
        | some q => .ok (Expr.Num q) rest
        | none => .perr ⟨Token.Var c, "Unknown variable"⟩
      | Token.Func fname :: rest =>
        if fname = "sin" then runFuncTail vals Func.Sin rest
        else if fname = "cos" then runFuncTail vals Func.Cos rest
        else if fname = "tan" then runFuncTail vals Func.Tan rest
        else if fname = "ln" then runFuncTail vals Func.Ln rest
        else if fname = "log" then
          match rest with
          | Token.Num base :: rest₂ => runFuncTail vals (Func.Log base) rest₂
          | [] => .crash
          | _ :: _ => .perr ⟨Token.Func fname, "Missing base for log function"⟩
        else .perr ⟨Token.Func fname, "Unknown function"⟩
      | Token.Ident name :: rest =>
        match rest with
        | [] => .ok (Expr.Ident name) []
        | u :: rest₂ =>
          if u = Token.LParen then runCallTail vals name rest₂
          else .ok (Expr.Ident name) (u :: rest₂)
      | t :: _ => .perr ⟨t, "Expected expression"⟩ := by
  unfold runPrimary primary
  cases ts with
  | nil => simp [PR.crash]
  | cons t rest =>
    cases t with
    | Num q => simp [PR.ok]
    | LParen =>
      rcases hf : expression vals rest with ⟨r, hr⟩
      cases r with
      | ok e rest₂ =>
        cases rest₂ with
        | nil => simp [runExpression, hf, PR.crash]
        | cons u rest₃ =>
          cases u <;> simp [runExpression, hf, PR.ok, PR.err, PR.crash]
      | perr er => simp [runExpression, hf, PR.err]
      | crash => simp [runExpression, hf, PR.crash]
    | Pipe =>
      rcases hf : expression vals rest with ⟨r, hr⟩
      cases r with
      | ok e rest₂ =>
        cases rest₂ with
        | nil => simp [runExpression, hf, PR.crash]
        | cons u rest₃ =>
          cases u <;> simp [runExpression, hf, PR.ok, PR.err, PR.crash]
      | perr er => simp [runExpression, hf, PR.err]
      | crash => simp [runExpression, hf, PR.crash]
    | Var c =>
      rcases hl : (vals.lookup c : Option ℚ) with _ | q <;>
        simp [hl, PR.ok, PR.err]
    | Func fname =>
      by_cases h₁ : fname = "sin"
      · simp [h₁, PR_widen_val, runFuncTail]
      · by_cases h₂ : fname = "cos"
        · simp [h₁, h₂, PR_widen_val, runFuncTail]
        · by_cases h₃ : fname = "tan"
          · simp [h₁, h₂, h₃, PR_widen_val, runFuncTail]
          · by_cases h₄ : fname = "ln"
            · simp [h₁, h₂, h₃, h₄, PR_widen_val, runFuncTail]
            · by_cases h₅ : fname = "log"
              · simp only [h₁, h₂, h₃, h₄, h₅, if_false, if_true]
                cases rest with
                | nil => simp [PR.crash]
                | cons u rest₂ =>
                  cases u <;> simp [PR_widen_val, runFuncTail, PR.err, PR.crash]
              · simp [h₁, h₂, h₃, h₄, h₅, PR.err]
    | Ident name =>
      cases rest with
      | nil => simp [PR.ok]
      | cons u rest₂ =>
        by_cases hu : u = Token.LParen
        · simp [hu, PR_widen_val, runCallTail]
        · simp [hu, PR.ok]
    | _ => simp [PR.err]

/-! ### Statement-level parser

`Modelled from the spec:` §4.2 — statement-level parsing recognizes a
function declaration (`fn` keyword, identifier, parenthesized comma-separated
parameter-name list, one expression body), an assignment (`let` keyword,
identifier, `=`, one expression), and otherwise a bare expression.  The
parser version called by `App::eval` (`Parser::new(tokens)`, without a
letter→value map) is not in the source tree; the expression grammar is the
one of `src/parse.rs`, invoked with an empty substitution map. -/

/-- Result of the statement-level parse. -/
inductive SRes : Type where
  | ok (s : Stmt) (rest : List Token)
  | perr (err : ParseErr)
  | crash

/-- `Modelled from the spec:` the comma-separated parameter names after the
first one, ended by the closing parenthesis. -/
def paramsLoop : List String → List Token → Except ParseErr (List String × List Token)
  | acc, Token.Comma :: Token.Ident p :: rest => paramsLoop (acc ++ [p]) rest
  | acc, Token.RParen :: rest => .ok (acc, rest)
  | _, t :: _ => .error ⟨t, "Expected parameter name"⟩
  | _, [] => .error ⟨Token.RParen, "Expected parameter name"⟩

/-- `Modelled from the spec:` the parenthesized parameter-name list of a
function declaration (the opening parenthesis is already consumed). -/
def paramsList : List Token → Except ParseErr (List String × List Token)
  | Token.RParen :: rest => .ok ([], rest)
  | Token.Ident p :: rest => paramsLoop [p] rest
  | t :: _ => .error ⟨t, "Expected parameter name"⟩
  | [] => .error ⟨Token.RParen, "Expected parameter name"⟩

/-- `Modelled from the spec:` §4.2 statement-level parsing; produces exactly
one `Stmt`.  Expressions are parsed by the embedded grammar of
`src/parse.rs` with an empty letter→value map. -/
def parseStmt (ts : List Token) : SRes :=
  match ts with
  | Token.LetKw :: rest =>
    match rest with
    | Token.Ident name :: Token.Equal :: rest₂ =>
      match runExpression [] rest₂ with
      | .ok e rest₃ => .ok (Stmt.Assign name e) rest₃
      | .perr er => .perr er
      | .crash => .crash
    | t :: _ => .perr ⟨t, "Malformed assignment"⟩
    | [] => .perr ⟨Token.Equal, "Malformed assignment"⟩
  | Token.FnKw :: rest =>
    match rest with
    | Token.Ident name :: Token.LParen :: rest₂ =>
      match paramsList rest₂ with
      | .error er => .perr er
      | .ok (params, rest₃) =>
        match runExpression [] rest₃ with
        | .ok body rest₄ => .ok (Stmt.Fn name params body) rest₄
        | .perr er => .perr er
        | .crash => .crash
    | t :: _ => .perr ⟨t, "Malformed function declaration"⟩
    | [] => .perr ⟨Token.FnKw, "Malformed function declaration"⟩
  | _ =>
    match runExpression [] ts with
    | .ok e rest => .ok (Stmt.Expr e) rest
    | .perr er => .perr er
    | .crash => .crash

/-! ### Interpreter

`Modelled from the spec:` §4.3 — `interpreter.rs` is not in the source tree.
The interpreter holds variable bindings and function definitions, and
evaluates expressions by a post-order walk.  Arithmetic is on `ℚ` where the
code uses `f64`: `+`, `-`, `*`, `/`, `%` and integer-exponent `^` are exact
on the values used in the theorems below.  The spots where IEEE `f64` would
produce `inf`/`NaN` (division by zero, zero modulus, non-integer exponents)
return `0` here, and the transcendental built-ins (`sin`, `cos`, `tan`,
`ln`, `log`) are taken as an oracle parameter `Prim`; per §7 none of these
are evaluation errors, and no claim depends on their numeric values. -/

/-- Truncation toward zero, as in Rust's `f64::trunc`. -/
def ratTrunc (q : ℚ) : ℚ := ((q.num / (q.den : ℤ) : ℤ) : ℚ)

/-- Rust `%` on `f64`: `a - b * (a / b).trunc()`; a zero modulus (IEEE `NaN`)
is mapped to `0`. -/
def ratMod (a b : ℚ) : ℚ := if b = 0 then 0 else a - b * ratTrunc (a / b)

/-- `f64::powf`: exact for integer exponents; a non-integer exponent
(real-valued `pow`, not representable in `ℚ`) is mapped to `0`. -/
def ratPow (a e : ℚ) : ℚ := if e.den = 1 then a ^ e.num else 0

/-- Oracle giving the values of the transcendental built-in functions
(IEEE `f64` transcendentals are outside the rational model). -/
def Prim : Type := Func → ℚ → ℚ

/-- The interpreter's environment: variable bindings and function
definitions (spec §3). -/
structure Interp : Type where
  vars : String → Option Value
  funcs : String → Option (List String × Expr)

/-- `Interpreter::new` with no bindings. -/
def Interp.new : Interp := ⟨fun _ => none, fun _ => none⟩

/-- `Interpreter::define`: bind (or rebind) a variable. -/
def Interp.define (it : Interp) (name : String) (v : Value) : Interp :=
  { it with vars := fun n => if n = name then some v else it.vars n }

/-- `Interpreter::declare_function`: install or replace a function. -/
def Interp.declareFunction (it : Interp) (name : String) (params : List String)
    (body : Expr) : Interp :=
  { it with funcs := fun n => if n = name then some (params, body) else it.funcs n }

mutual

/-- `Modelled from the spec:` §4.3 — `Interpreter::interpret_expr`.  The
fuel argument models the unbounded recursion of user-defined function
calls (self-referential bodies recurse without termination in the code,
spec §5); every terminating evaluation is reproduced by any sufficiently
large fuel. -/
def interpExpr (pr : Prim) (it : Interp) : ℕ → Expr → Except String ℚ
  | 0, _ => .error "Evaluation depth limit reached"
  | fuel + 1, e =>
    match e with
    | .Num q => .ok q
    | .Negative e => (interpExpr pr it fuel e).map (fun v => -v)
    | .Grouping e => interpExpr pr it fuel e
    | .Abs e => (interpExpr pr it fuel e).map (fun v => |v|)
    | .Binary l op r => do
      let a ← interpExpr pr it fuel l
      let b ← interpExpr pr it fuel r
      match op with
      | .Plus => .ok (a + b)
      | .Minus => .ok (a - b)
      | .Mult => .ok (a * b)
      | .Div => .ok (a / b)
      | .Mod => .ok (ratMod a b)
      | _ => .error "Invalid binary operator"
    | .Exponent b e => do
      let a ← interpExpr pr it fuel b
      let x ← interpExpr pr it fuel e
      .ok (ratPow a x)
    | .Func f arg => (interpExpr pr it fuel arg).map (pr f)
    | .Ident name =>
      match it.vars name with
      | some (.Num q) => .ok q
      | none => .error ("Unknown variable: " ++ name)
    | .Call name args =>
      match it.funcs name with
      | none => .error ("Undefined function: " ++ name)
      | some (params, body) =>
        if params.length = args.length then
          (interpArgs pr it fuel args).bind fun vs =>
            interpExpr pr
              { it with vars := fun n =>
                  match (params.zip vs).lookup n with
                  | some v => some (Value.Num v)
                  | none => it.vars n }
              fuel body
        else .error "Wrong number of arguments"

/-- Evaluation of a call's argument expressions, left to right, in the
caller's environment. -/
def interpArgs (pr : Prim) (it : Interp) : ℕ → List Expr → Except String (List ℚ)
  | 0, _ => .error "Evaluation depth limit reached"
  | _ + 1, [] => .ok []
  | fuel + 1, a :: rest =>
    (interpExpr pr it fuel a).bind fun v =>
      (interpArgs pr it fuel rest).map fun vs => v :: vs

end

/-! ### The application state and `App::eval`

`App::eval` is in `src/app.rs` (lines 134–189) and is transcribed
faithfully below; only the fields that the language engine touches are
modelled (`input`, `output`, `err`, `interpreter`, `expr_history`,
`expr_selector`; the UI fields `should_quit`, `popup` and the rc-file path
play no role in any claim). -/

structure App : Type where
  input : String
  output : Option String
  err : Option String
  interpreter : Interp
  exprHistory : List Expr
  exprSelector : ℕ

/-- A fresh application state over an empty environment. -/
def App.new : App := ⟨"", none, none, Interp.new, [], 0⟩

/-- `App::set_output` (src/app.rs lines 191–194). -/
def App.setOutput (st : App) (msg : String) : App :=
  { st with output := some msg, err := none }

/-- `App::set_err` (src/app.rs lines 196–199). -/
def App.setErr (st : App) (msg : String) : App :=
  { st with err := some msg, output := none }

/-- `val.to_string()` for display of a computed value. -/
def ratStr (q : ℚ) : String := ⟨ratChars q⟩

/-- `impl Display for ParseErr` (src/parse.rs lines 83–87). -/
def parseErrStr (e : ParseErr) : String := "ERROR: " ++ e.msg

/-- `App::eval` (src/app.rs lines 134–189), transcribed match arm by match
arm.  `prim` and `fuel` parametrize the spec-modelled interpreter.  A
`crash` from the parser would be a Rust panic aborting the process; it is
unreachable for tokenizer output (the tokenizer always appends the `Eoe`
sentinel) and is mapped to the unchanged state. -/
def App.eval (prim : Prim) (fuel : ℕ) (st : App) : App :=
  match tokenize st.input.data with
  | .error msg => st.setErr msg
  | .ok tokens =>
    match parseStmt tokens with
    | .crash => st
    | .perr er => st.setErr (parseErrStr er)
    | .ok stmt _ =>
      match stmt with
      | .Expr e =>
        match interpExpr prim st.interpreter fuel e with
        | .ok val =>
          let hist :=
            if st.exprHistory.contains e then st.exprHistory
            else st.exprHistory ++ [e]
          let sel :=
            if st.exprSelector = hist.length then st.exprSelector + 1
            else st.exprSelector
          { input := "",
            output := some (ratStr val),
            err := none,
            interpreter := st.interpreter.define "ans" (Value.Num val),
            exprHistory := hist,
            exprSelector := sel }
        | .error msg => { st with err := some msg }
      | .Fn name params body =>
        { st with
            interpreter := st.interpreter.declareFunction name params body,
            input := "" }
      | .Assign name e =>
        match interpExpr prim st.interpreter fuel e with
        | .ok val =>
          let hist :=
            if st.exprHistory.contains e then st.exprHistory
            else st.exprHistory ++ [e]
          let sel :=
            if st.exprSelector = hist.length then st.exprSelector + 1
            else st.exprSelector
          { input := "",
            output := some (ratStr val),
            err := none,
            interpreter :=
              (st.interpreter.define "ans" (Value.Num val)).define name
                (Value.Num val),
            exprHistory := hist,
            exprSelector := sel }
        | .error msg => { st with output := some msg }

/-- Place one line of raw text in the input widget and evaluate it, the
way the UI drives `App::eval`. -/
def App.runLine (prim : Prim) (fuel : ℕ) (st : App) (line : String) : App :=
  App.eval prim fuel { st with input := line }

/-! ### Grammar derivations

`Gram lv e` says the tree `e` is derivable by the expression grammar of
`src/parse.rs` at precedence level `lv`; `Expr.toks e` is the token
sequence the derivation reads.  These drive every schematic statement
about what shape the parser produces. -/

/-- Tokens of a built-in function head; for `log` the base literal is read
immediately after the function token. -/
def funcToks : Func → List Token
  | .Sin => [Token.Func "sin"]
  | .Cos => [Token.Func "cos"]
  | .Tan => [Token.Func "tan"]
  | .Ln => [Token.Func "ln"]
  | .Log base => [Token.Func "log", Token.Num base]

mutual

/-- The token sequence a grammar derivation of `e` reads. -/
def Expr.toks : Expr → List Token
  | .Num q => [Token.Num q]
  | .Negative e => Token.Minus :: e.toks
  | .Grouping e => Token.LParen :: (e.toks ++ [Token.RParen])
  | .Abs e => Token.Pipe :: (e.toks ++ [Token.Pipe])
  | .Binary l op r => l.toks ++ (op :: r.toks)
  | .Exponent b e => b.toks ++ (Token.Power :: e.toks)
  | .Func f a => funcToks f ++ (Token.LParen :: (a.toks ++ [Token.RParen]))
  | .Ident name => [Token.Ident name]
  | .Call name args =>
    Token.Ident name :: Token.LParen :: (argToks args ++ [Token.RParen])

/-- Argument-list tokens of a call, comma separated. -/
def argToks : List Expr → List Token
  | [] => []
  | [e] => e.toks
  | e :: rest => e.toks ++ (Token.Comma :: argToks rest)

end

/-- Precedence levels of the expression grammar, loosest (`term`) to
tightest (`prim`). -/
inductive Lv : Type where
  | prim
  | neg
  | expo
  | fact
  | term
  deriving DecidableEq, Repr

/-- Derivability of a tree at a precedence level, following the grammar of
`src/parse.rs` §4.2: `term` is a left-associative `+`/`-` chain of factors,
`factor` a left-associative `*`/`/`/`%` chain of exponent-expressions,
`exponent` a left-folded `^` chain of unary-minus-expressions, `negative`
right-recursive unary minus over primaries, and `primary` a literal, a
grouping, an absolute value, or a built-in function application. -/
inductive Gram : Lv → Expr → Prop where
  | num (q : ℚ) : Gram .prim (.Num q)
  | group {e : Expr} : Gram .term e → Gram .prim (.Grouping e)
  | abs {e : Expr} : Gram .term e → Gram .prim (.Abs e)
  | func (f : Func) {a : Expr} : Gram .term a → Gram .prim (.Func f a)
  | pn {e : Expr} : Gram .prim e → Gram .neg e
  | nneg {e : Expr} : Gram .neg e → Gram .neg (.Negative e)
  | ne {e : Expr} : Gram .neg e → Gram .expo e
  | expo {a b : Expr} : Gram .expo a → Gram .neg b → Gram .expo (.Exponent a b)
  | ef {e : Expr} : Gram .expo e → Gram .fact e
  | fact {a b : Expr} {op : Token} : Gram .fact a →
      op = Token.Div ∨ op = Token.Mult ∨ op = Token.Mod → Gram .expo b →
      Gram .fact (.Binary a op b)
  | ft {e : Expr} : Gram .fact e → Gram .term e
  | term {a b : Expr} {op : Token} : Gram .term a →
      op = Token.Plus ∨ op = Token.Minus → Gram .fact b →
      Gram .term (.Binary a op b)

/-- Would this token make the parser continue at the given level? -/
def isContTok : Lv → Token → Bool
  | .term, t => t == Token.Plus || t == Token.Minus || t == Token.Div ||
      t == Token.Mult || t == Token.Mod || t == Token.Power
  | .fact, t => t == Token.Div || t == Token.Mult || t == Token.Mod ||
      t == Token.Power
  | .expo, t => t == Token.Power
  | .neg, _ => false
  | .prim, _ => false

/-- The parse at level `lv` stops exactly at `rest`: `rest` is nonempty and
its first token does not continue the level. -/
def stopsAt (lv : Lv) (rest : List Token) : Bool :=
  match rest with
  | [] => false
  | u :: _ => !isContTok lv u

/-- Tokens of the `^`-chain after the leftmost operand. -/
def powChainToks (chain : List Expr) : List Token :=
  chain.foldr (fun c acc => Token.Power :: (c.toks ++ acc)) []

/-- Tokens of a binary-operator chain after the leftmost operand. -/
def opChainToks (chain : List (Token × Expr)) : List Token :=
  chain.foldr (fun p acc => p.1 :: (p.2.toks ++ acc)) []

/-- Left fold of a binary-operator chain onto its leftmost operand — the
tree shape the parser's loops build. -/
def opFold (e0 : Expr) (chain : List (Token × Expr)) : Expr :=
  chain.foldl (fun acc p => Expr.Binary acc p.1 p.2) e0

theorem powChainToks_foldr (chain : List Expr) (init : List Token) :
    chain.foldr (fun c acc => Token.Power :: (c.toks ++ acc)) init =
      powChainToks chain ++ init := by
  induction chain with
  | nil => simp [powChainToks]
  | cons x xs ih => simp [powChainToks] at ih ⊢; simp [ih]

theorem opChainToks_foldr (chain : List (Token × Expr)) (init : List Token) :
    chain.foldr (fun p acc => p.1 :: (p.2.toks ++ acc)) init =
      opChainToks chain ++ init := by
  induction chain with
  | nil => simp [opChainToks]
  | cons x xs ih => simp [opChainToks] at ih ⊢; simp [ih]

theorem powChainToks_append (c₁ c₂ : List Expr) :
    powChainToks (c₁ ++ c₂) = powChainToks c₁ ++ powChainToks c₂ := by
  induction c₁ with
  | nil => simp [powChainToks]
  | cons x xs ih => simp [powChainToks] at ih ⊢; simp [ih]

theorem opChainToks_append (c₁ c₂ : List (Token × Expr)) :
    opChainToks (c₁ ++ c₂) = opChainToks c₁ ++ opChainToks c₂ := by
  induction c₁ with
  | nil => simp [opChainToks]
  | cons x xs ih => simp [opChainToks] at ih ⊢; simp [ih]

theorem expoSpine {e : Expr} (h : Gram Lv.expo e) :
    ∃ b0 chain, Gram Lv.neg b0 ∧ (∀ c ∈ chain, Gram Lv.neg c) ∧
      e = chain.foldl Expr.Exponent b0 ∧
      Expr.toks e = b0.toks ++ powChainToks chain := by
  generalize hlv : Lv.expo = lv at h
  induction h with
  | num q => exact absurd hlv (by decide)
  | group _ _ => exact absurd hlv (by decide)
  | abs _ _ => exact absurd hlv (by decide)
  | func _ _ _ => exact absurd hlv (by decide)
  | pn _ _ => exact absurd hlv (by decide)
  | nneg _ _ => exact absurd hlv (by decide)
  | ef _ _ => exact absurd hlv (by decide)
  | fact _ _ _ _ _ => exact absurd hlv (by decide)
  | ft _ _ => exact absurd hlv (by decide)
  | term _ _ _ _ _ => exact absurd hlv (by decide)
  | ne hb _ => exact ⟨_, [], hb, by simp, by simp, by simp [powChainToks]⟩
  | @expo a b ha hb iha _ =>
    obtain ⟨b0, chain, h1, h2, h3, h4⟩ := iha rfl
    refine ⟨b0, chain ++ [b], h1, ?_, ?_, ?_⟩
    · intro c hc
      rcases List.mem_append.1 hc with hc | hc
      · exact h2 c hc
      · simp at hc; subst hc; exact hb
    · simp [List.foldl_append, ← h3]
    · simp only [Expr.toks, h4, powChainToks_append, List.append_assoc,
        List.append_cancel_left_eq]
      simp [powChainToks]

theorem factSpine {e : Expr} (h : Gram Lv.fact e) :
    ∃ e0 chain, Gram Lv.expo e0 ∧
      (∀ p ∈ chain,
        (p.1 = Token.Div ∨ p.1 = Token.Mult ∨ p.1 = Token.Mod) ∧
          Gram Lv.expo p.2) ∧
      e = opFold e0 chain ∧ Expr.toks e = e0.toks ++ opChainToks chain := by
  generalize hlv : Lv.fact = lv at h
  induction h with
  | num q => exact absurd hlv (by decide)
  | group _ _ => exact absurd hlv (by decide)
  | abs _ _ => exact absurd hlv (by decide)
  | func _ _ _ => exact absurd hlv (by decide)
  | pn _ _ => exact absurd hlv (by decide)
  | nneg _ _ => exact absurd hlv (by decide)
  | ne _ _ => exact absurd hlv (by decide)
  | expo _ _ _ _ => exact absurd hlv (by decide)
  | ft _ _ => exact absurd hlv (by decide)
  | term _ _ _ _ _ => exact absurd hlv (by decide)
  | ef hb _ => exact ⟨_, [], hb, by simp, by simp [opFold], by simp [opChainToks]⟩
  | @fact a b op ha hop hb iha _ =>
    obtain ⟨e0, chain, h1, h2, h3, h4⟩ := iha rfl
    refine ⟨e0, chain ++ [(op, b)], h1, ?_, ?_, ?_⟩
    · intro p hp
      rcases List.mem_append.1 hp with hp | hp
      · exact h2 p hp
      · simp at hp; subst hp; exact ⟨hop, hb⟩
    · simp [opFold, List.foldl_append] at h3 ⊢; simp [← h3]
    · simp only [Expr.toks, h4, opChainToks_append, List.append_assoc,
        List.append_cancel_left_eq]
      simp [opChainToks]

theorem termSpine {e : Expr} (h : Gram Lv.term e) :
    ∃ e0 chain, Gram Lv.fact e0 ∧
      (∀ p ∈ chain,
        (p.1 = Token.Plus ∨ p.1 = Token.Minus) ∧ Gram Lv.fact p.2) ∧
      e = opFold e0 chain ∧ Expr.toks e = e0.toks ++ opChainToks chain := by
  generalize hlv : Lv.term = lv at h
  induction h with
  | num q => exact absurd hlv (by decide)
  | group _ _ => exact absurd hlv (by decide)
  | abs _ _ => exact absurd hlv (by decide)
  | func _ _ _ => exact absurd hlv (by decide)
  | pn _ _ => exact absurd hlv (by decide)
  | nneg _ _ => exact absurd hlv (by decide)
  | ne _ _ => exact absurd hlv (by decide)
  | expo _ _ _ _ => exact absurd hlv (by decide)
  | ef _ _ => exact absurd hlv (by decide)
  | fact _ _ _ _ _ => exact absurd hlv (by decide)
  | ft hb _ => exact ⟨_, [], hb, by simp, by simp [opFold], by simp [opChainToks]⟩
  | @term a b op ha hop hb iha _ =>
    obtain ⟨e0, chain, h1, h2, h3, h4⟩ := iha rfl
    refine ⟨e0, chain ++ [(op, b)], h1, ?_, ?_, ?_⟩
    · intro p hp
      rcases List.mem_append.1 hp with hp | hp
      · exact h2 p hp
      · simp at hp; subst hp; exact ⟨hop, hb⟩
    · simp [opFold, List.foldl_append] at h3 ⊢; simp [← h3]
    · simp only [Expr.toks, h4, opChainToks_append, List.append_assoc,
        List.append_cancel_left_eq]
      simp [opChainToks]

theorem toks_ne_nil (e : Expr) : e.toks ≠ [] := by
  cases e <;> simp [Expr.toks]

theorem mem_powChain_len {chain : List Expr} {c : Expr} (h : c ∈ chain) :
    (Expr.toks c).length < (powChainToks chain).length := by
  induction chain with
  | nil => cases h
  | cons x xs ih =>
    rcases List.mem_cons.1 h with h | h
    · subst h; simp [powChainToks]; omega
    · have := ih h
      simp [powChainToks] at this ⊢
      omega

theorem mem_opChain_len {chain : List (Token × Expr)} {p : Token × Expr}
    (h : p ∈ chain) : (Expr.toks p.2).length < (opChainToks chain).length := by
  induction chain with
  | nil => cases h
  | cons x xs ih =>
    rcases List.mem_cons.1 h with h | h
    · subst h; simp [opChainToks]; omega
    · have := ih h
      simp [opChainToks] at this ⊢
      omega

theorem stopsAt_expo_of_fact {rest : List Token}
    (h : stopsAt Lv.fact rest = true) : stopsAt Lv.expo rest = true := by
  cases rest with
  | nil => simp [stopsAt] at h
  | cons u l =>
    simp [stopsAt, isContTok] at h ⊢
    tauto

theorem stopsAt_fact_of_term {rest : List Token}
    (h : stopsAt Lv.term rest = true) : stopsAt Lv.fact rest = true := by
  cases rest with
  | nil => simp [stopsAt] at h
  | cons u l =>
    simp [stopsAt, isContTok] at h ⊢
    tauto

theorem stopsAt_ne_nil {lv : Lv} {rest : List Token}
    (h : stopsAt lv rest = true) : rest ≠ [] := by
  cases rest with
  | nil => simp [stopsAt] at h
  | cons u l => simp

theorem stops_expo_chain {chain : List (Token × Expr)} {rest : List Token}
    (hops : ∀ p ∈ chain, p.1 = Token.Div ∨ p.1 = Token.Mult ∨ p.1 = Token.Mod)
    (h : stopsAt Lv.fact rest = true) :
    stopsAt Lv.expo (opChainToks chain ++ rest) = true := by
  cases chain with
  | nil => simpa [opChainToks] using stopsAt_expo_of_fact h
  | cons p c =>
    have := hops p (by simp)
    rcases this with h1 | h1 | h1 <;>
      simp [opChainToks, stopsAt, isContTok, h1]

theorem stops_fact_chain {chain : List (Token × Expr)} {rest : List Token}
    (hops : ∀ p ∈ chain, p.1 = Token.Plus ∨ p.1 = Token.Minus)
    (h : stopsAt Lv.term rest = true) :
    stopsAt Lv.fact (opChainToks chain ++ rest) = true := by
  cases chain with
  | nil => simpa [opChainToks] using stopsAt_fact_of_term h
  | cons p c =>
    have := hops p (by simp)
    rcases this with h1 | h1 <;>
      simp [opChainToks, stopsAt, isContTok, h1]

theorem exponentLoopRun (vals : Vals) :
    ∀ chain : List Expr, ∀ acc : Expr, ∀ rest : List Token,
      (∀ c ∈ chain, ∀ rest₂ : List Token, rest₂ ≠ [] →
        runNegative vals (c.toks ++ rest₂) = .ok c rest₂) →
      stopsAt Lv.expo rest = true →
      runExponentLoop vals acc (powChainToks chain ++ rest) =
        .ok (chain.foldl Expr.Exponent acc) rest := by
  intro chain
  induction chain with
  | nil =>
    intro acc rest _ hstop
    cases rest with
    | nil => simp [stopsAt] at hstop
    | cons u l =>
      simp only [powChainToks, List.foldr_nil, List.nil_append]
      rw [runExponentLoop_eq]
      have hcond : ¬u = Token.Power := by
        simp [stopsAt, isContTok] at hstop
        tauto
      simp [hcond]
  | cons c chain ih =>
    intro acc rest hsub hstop
    have hrest : rest ≠ [] := stopsAt_ne_nil hstop
    have hne : powChainToks chain ++ rest ≠ [] := by
      cases rest
      · exact absurd rfl hrest
      · simp
    have hC := hsub c (by simp) (powChainToks chain ++ rest) hne
    have hch : powChainToks (c :: chain) =
        Token.Power :: (c.toks ++ powChainToks chain) := by
      simp [powChainToks]
    rw [hch]
    rw [show (Token.Power :: (c.toks ++ powChainToks chain)) ++ rest =
      Token.Power :: (c.toks ++ (powChainToks chain ++ rest)) by simp]
    rw [runExponentLoop_eq]
    dsimp only
    rw [if_pos rfl, hC]
    dsimp only
    rw [ih (Expr.Exponent acc c) rest
      (fun c₂ hc₂ => hsub c₂ (List.mem_cons_of_mem _ hc₂)) hstop]
    simp

theorem factorLoopRun (vals : Vals) :
    ∀ chain : List (Token × Expr), ∀ acc : Expr, ∀ rest : List Token,
      (∀ p ∈ chain,
        (p.1 = Token.Div ∨ p.1 = Token.Mult ∨ p.1 = Token.Mod) ∧
        ∀ rest₂ : List Token, stopsAt Lv.expo rest₂ = true →
          runExponent vals (p.2.toks ++ rest₂) = .ok p.2 rest₂) →
      stopsAt Lv.fact rest = true →
      runFactorLoop vals acc (opChainToks chain ++ rest) =
        .ok (opFold acc chain) rest := by
  intro chain
  induction chain with
  | nil =>
    intro acc rest _ hstop
    cases rest with
    | nil => simp [stopsAt] at hstop
    | cons u l =>
      simp only [opChainToks, List.foldr_nil, List.nil_append]
      rw [runFactorLoop_eq]
      have hcond : ¬(u = Token.Div ∨ u = Token.Mult ∨ u = Token.Mod) := by
        simp [stopsAt, isContTok] at hstop
        tauto
      simp [hcond, opFold]
  | cons p chain ih =>
    intro acc rest hsub hstop
    have hrest : rest ≠ [] := stopsAt_ne_nil hstop
    have hstop₂ : stopsAt Lv.expo (opChainToks chain ++ rest) = true :=
      stops_expo_chain (fun q hq => ((hsub q (List.mem_cons_of_mem _ hq)).1)) hstop
    have hC := (hsub p (by simp)).2 (opChainToks chain ++ rest) hstop₂
    have hch : opChainToks (p :: chain) =
        p.1 :: (p.2.toks ++ opChainToks chain) := by
      simp [opChainToks]
    rw [hch]
    rw [show (p.1 :: (p.2.toks ++ opChainToks chain)) ++ rest =
      p.1 :: (p.2.toks ++ (opChainToks chain ++ rest)) by simp]
    rw [runFactorLoop_eq]
    dsimp only
    have hop := (hsub p (by simp)).1
    rw [if_pos hop, hC]
    dsimp only
    rw [ih (Expr.Binary acc p.1 p.2) rest
      (fun q hq => hsub q (List.mem_cons_of_mem _ hq)) hstop]
    simp [opFold]

theorem termLoopRun (vals : Vals) :
    ∀ chain : List (Token × Expr), ∀ acc : Expr, ∀ rest : List Token,
      (∀ p ∈ chain,
        (p.1 = Token.Plus ∨ p.1 = Token.Minus) ∧
        ∀ rest₂ : List Token, stopsAt Lv.fact rest₂ = true →
          runFactor vals (p.2.toks ++ rest₂) = .ok p.2 rest₂) →
      stopsAt Lv.term rest = true →
      runTermLoop vals acc (opChainToks chain ++ rest) =
        .ok (opFold acc chain) rest := by
  intro chain
  induction chain with
  | nil =>
    intro acc rest _ hstop
    cases rest with
    | nil => simp [stopsAt] at hstop
    | cons u l =>
      simp only [opChainToks, List.foldr_nil, List.nil_append]
      rw [runTermLoop_eq]
      have hcond : ¬(u = Token.Plus ∨ u = Token.Minus) := by
        simp [stopsAt, isContTok] at hstop
        tauto
      simp [hcond, opFold]
  | cons p chain ih =>
    intro acc rest hsub hstop
    have hrest : rest ≠ [] := stopsAt_ne_nil hstop
    have hstop₂ : stopsAt Lv.fact (opChainToks chain ++ rest) = true :=
      stops_fact_chain (fun q hq => ((hsub q (List.mem_cons_of_mem _ hq)).1)) hstop
    have hC := (hsub p (by simp)).2 (opChainToks chain ++ rest) hstop₂
    have hch : opChainToks (p :: chain) =
        p.1 :: (p.2.toks ++ opChainToks chain) := by
      simp [opChainToks]
    rw [hch]
    rw [show (p.1 :: (p.2.toks ++ opChainToks chain)) ++ rest =
      p.1 :: (p.2.toks ++ (opChainToks chain ++ rest)) by simp]
    rw [runTermLoop_eq]
    dsimp only
    have hop := (hsub p (by simp)).1
    rw [if_pos hop, hC]
    dsimp only
    rw [ih (Expr.Binary acc p.1 p.2) rest
      (fun q hq => hsub q (List.mem_cons_of_mem _ hq)) hstop]
    simp [opFold]

theorem runNegative_nonminus (vals : Vals) (t : Token) (l : List Token)
    (h : t ≠ Token.Minus) : runNegative vals (t :: l) = runPrimary vals (t :: l) := by
  rw [runNegative_eq]
  cases t <;> first | rfl | exact absurd rfl h

theorem prim_toks_head {e : Expr} (h : Gram Lv.prim e) :
    ∃ t l, e.toks = t :: l ∧ t ≠ Token.Minus := by
  cases h with
  | num q => exact ⟨Token.Num q, [], by simp [Expr.toks], by simp⟩
  | @group inner _ =>
    exact ⟨Token.LParen, inner.toks ++ [Token.RParen], by simp [Expr.toks],
      by simp⟩
  | @abs inner _ =>
    exact ⟨Token.Pipe, inner.toks ++ [Token.Pipe], by simp [Expr.toks],
      by simp⟩
  | @func f a _ =>
    cases f with
    | Sin =>
      exact ⟨Token.Func "sin", Token.LParen :: (a.toks ++ [Token.RParen]),
        by simp [Expr.toks, funcToks], by simp⟩
    | Cos =>
      exact ⟨Token.Func "cos", Token.LParen :: (a.toks ++ [Token.RParen]),
        by simp [Expr.toks, funcToks], by simp⟩
    | Tan =>
      exact ⟨Token.Func "tan", Token.LParen :: (a.toks ++ [Token.RParen]),
        by simp [Expr.toks, funcToks], by simp⟩
    | Ln =>
      exact ⟨Token.Func "ln", Token.LParen :: (a.toks ++ [Token.RParen]),
        by simp [Expr.toks, funcToks], by simp⟩
    | Log base =>
      exact ⟨Token.Func "log",
        Token.Num base :: (Token.LParen :: (a.toks ++ [Token.RParen])),
        by simp [Expr.toks, funcToks], by simp⟩

/-- The central print-parse fact: the token sequence of a grammar derivation
parses back, at the derivation's level, to exactly the derived tree, leaving
exactly the trailing tokens (whose first token must not continue the
level). -/
theorem gramParse :
    ∀ n : ℕ, ∀ e : Expr, (Expr.toks e).length ≤ n →
      (∀ vals rest, Gram Lv.prim e → rest ≠ ([] : List Token) →
        runPrimary vals (e.toks ++ rest) = .ok e rest) ∧
      (∀ vals rest, Gram Lv.neg e → rest ≠ ([] : List Token) →
        runNegative vals (e.toks ++ rest) = .ok e rest) ∧
      (∀ vals rest, Gram Lv.expo e → stopsAt Lv.expo rest = true →
        runExponent vals (e.toks ++ rest) = .ok e rest) ∧
      (∀ vals rest, Gram Lv.fact e → stopsAt Lv.fact rest = true →
        runFactor vals (e.toks ++ rest) = .ok e rest) ∧
      (∀ vals rest, Gram Lv.term e → stopsAt Lv.term rest = true →
        runTerm vals (e.toks ++ rest) = .ok e rest) := by
  intro n
  induction n with
  | zero =>
    intro e hle
    have h := toks_ne_nil e
    have : (Expr.toks e).length ≠ 0 := by
      intro h0
      exact h (List.length_eq_zero.1 h0)
    omega
  | succ n ih =>
    have Hprim : ∀ e : Expr, (Expr.toks e).length ≤ n + 1 →
        ∀ vals rest, Gram Lv.prim e → rest ≠ ([] : List Token) →
          runPrimary vals (e.toks ++ rest) = .ok e rest := by
      intro e hle vals rest hg hrest
      cases hg with
      | num q =>
        rw [show Expr.toks (Expr.Num q) ++ rest = Token.Num q :: rest by
          simp [Expr.toks]]
        rw [runPrimary_eq]
      | @group inner hinner =>
        have hlen : (Expr.toks inner).length ≤ n := by
          simp [Expr.toks] at hle; omega
        have hin := (ih inner hlen).2.2.2.2 vals (Token.RParen :: rest) hinner
          (by simp [stopsAt, isContTok])
        rw [show Expr.toks (Expr.Grouping inner) ++ rest =
          Token.LParen :: (inner.toks ++ (Token.RParen :: rest)) by
            simp [Expr.toks]]
        rw [runPrimary_eq]
        dsimp only
        rw [runExpression_eq, hin]
      | @abs inner hinner =>
        have hlen : (Expr.toks inner).length ≤ n := by
          simp [Expr.toks] at hle; omega
        have hin := (ih inner hlen).2.2.2.2 vals (Token.Pipe :: rest) hinner
          (by simp [stopsAt, isContTok])
        rw [show Expr.toks (Expr.Abs inner) ++ rest =
          Token.Pipe :: (inner.toks ++ (Token.Pipe :: rest)) by
            simp [Expr.toks]]
        rw [runPrimary_eq]
        dsimp only
        rw [runExpression_eq, hin]
      | @func f a hinner =>
        have hlen : (Expr.toks a).length ≤ n := by
          cases f <;> (simp [Expr.toks, funcToks] at hle; omega)
        have hin := (ih a hlen).2.2.2.2 vals (Token.RParen :: rest) hinner
          (by simp [stopsAt, isContTok])
        cases f with
        | Sin =>
          rw [show Expr.toks (Expr.Func Func.Sin a) ++ rest =
            Token.Func "sin" ::
              (Token.LParen :: (a.toks ++ (Token.RParen :: rest))) by
                simp [Expr.toks, funcToks]]
          rw [runPrimary_eq]
          dsimp only
          rw [if_pos rfl, runFuncTail_eq]
          dsimp only
          rw [runExpression_eq, hin]
        | Cos =>
          rw [show Expr.toks (Expr.Func Func.Cos a) ++ rest =
            Token.Func "cos" ::
              (Token.LParen :: (a.toks ++ (Token.RParen :: rest))) by
                simp [Expr.toks, funcToks]]
          rw [runPrimary_eq]
          dsimp only
          rw [if_neg (by decide), if_pos rfl, runFuncTail_eq]
          dsimp only
          rw [runExpression_eq, hin]
        | Tan =>
          rw [show Expr.toks (Expr.Func Func.Tan a) ++ rest =
            Token.Func "tan" ::
              (Token.LParen :: (a.toks ++ (Token.RParen :: rest))) by
                simp [Expr.toks, funcToks]]
          rw [runPrimary_eq]
          dsimp only
          rw [if_neg (by decide), if_neg (by decide), if_pos rfl, runFuncTail_eq]
          dsimp only
          rw [runExpression_eq, hin]
        | Ln =>
          rw [show Expr.toks (Expr.Func Func.Ln a) ++ rest =
            Token.Func "ln" ::
              (Token.LParen :: (a.toks ++ (Token.RParen :: rest))) by
                simp [Expr.toks, funcToks]]
          rw [runPrimary_eq]
          dsimp only
          rw [if_neg (by decide), if_neg (by decide), if_neg (by decide),
            if_pos rfl, runFuncTail_eq]
          dsimp only
          rw [runExpression_eq, hin]
        | Log base =>
          rw [show Expr.toks (Expr.Func (Func.Log base) a) ++ rest =
            Token.Func "log" :: (Token.Num base ::
              (Token.LParen :: (a.toks ++ (Token.RParen :: rest)))) by
                simp [Expr.toks, funcToks]]
          rw [runPrimary_eq]
          dsimp only
          rw [if_neg (by decide), if_neg (by decide), if_neg (by decide),
            if_neg (by decide), if_pos rfl]
          rw [runFuncTail_eq]
          dsimp only
          rw [runExpression_eq, hin]
    have Hneg : ∀ e : Expr, (Expr.toks e).length ≤ n + 1 →
        ∀ vals rest, Gram Lv.neg e → rest ≠ ([] : List Token) →
          runNegative vals (e.toks ++ rest) = .ok e rest := by
      intro e hle vals rest hg hrest
      cases hg with
      | pn hp =>
        obtain ⟨t, l, htoks, hne⟩ := prim_toks_head hp
        rw [htoks, List.cons_append, runNegative_nonminus vals t _ hne,
          ← List.cons_append, ← htoks]
        exact Hprim e hle vals rest hp hrest
      | @nneg e₂ hsub =>
        have hlen : (Expr.toks e₂).length ≤ n := by
          simp [Expr.toks] at hle; omega
        have hrun := (ih e₂ hlen).2.1 vals rest hsub hrest
        rw [show Expr.toks (Expr.Negative e₂) ++ rest =
          Token.Minus :: (e₂.toks ++ rest) by simp [Expr.toks]]
        rw [runNegative_eq]
        dsimp only
        rw [hrun]
    have Hexpo : ∀ e : Expr, (Expr.toks e).length ≤ n + 1 →
        ∀ vals rest, Gram Lv.expo e → stopsAt Lv.expo rest = true →
          runExponent vals (e.toks ++ rest) = .ok e rest := by
      intro e hle vals rest hg hstop
      obtain ⟨b0, chain, hb0, hchain, hfold, htoks⟩ := expoSpine hg
      have hrest := stopsAt_ne_nil hstop
      rw [htoks] at hle
      simp only [List.length_append] at hle
      have hne₂ : powChainToks chain ++ rest ≠ [] := by
        cases rest
        · exact absurd rfl hrest
        · simp
      have hb0run := Hneg b0 (by omega) vals (powChainToks chain ++ rest)
        hb0 hne₂
      have hsub : ∀ c ∈ chain, ∀ rest₂ : List Token, rest₂ ≠ [] →
          runNegative vals (c.toks ++ rest₂) = .ok c rest₂ := by
        intro c hc rest₂ hrest₂
        have h₁ := mem_powChain_len hc
        exact Hneg c (by omega) vals rest₂ (hchain c hc) hrest₂
      rw [htoks, List.append_assoc, runExponent_eq, hb0run]
      dsimp only
      rw [exponentLoopRun vals chain b0 rest hsub hstop, hfold]
    have Hfact : ∀ e : Expr, (Expr.toks e).length ≤ n + 1 →
        ∀ vals rest, Gram Lv.fact e → stopsAt Lv.fact rest = true →
          runFactor vals (e.toks ++ rest) = .ok e rest := by
      intro e hle vals rest hg hstop
      obtain ⟨e0, chain, he0, hchain, hfold, htoks⟩ := factSpine hg
      rw [htoks] at hle
      simp only [List.length_append] at hle
      have hstop₂ : stopsAt Lv.expo (opChainToks chain ++ rest) = true :=
        stops_expo_chain (fun p hp => (hchain p hp).1) hstop
      have he0run := Hexpo e0 (by omega) vals (opChainToks chain ++ rest)
        he0 hstop₂
      have hsub : ∀ p ∈ chain,
          (p.1 = Token.Div ∨ p.1 = Token.Mult ∨ p.1 = Token.Mod) ∧
          ∀ rest₂ : List Token, stopsAt Lv.expo rest₂ = true →
            runExponent vals (p.2.toks ++ rest₂) = .ok p.2 rest₂ := by
        intro p hp
        refine ⟨(hchain p hp).1, ?_⟩
        intro rest₂ hs₂
        have h₁ := mem_opChain_len hp
        exact Hexpo p.2 (by omega) vals rest₂ (hchain p hp).2 hs₂
      rw [htoks, List.append_assoc, runFactor_eq, he0run]
      dsimp only
      rw [factorLoopRun vals chain e0 rest hsub hstop, hfold]
    have Hterm : ∀ e : Expr, (Expr.toks e).length ≤ n + 1 →
        ∀ vals rest, Gram Lv.term e → stopsAt Lv.term rest = true →
          runTerm vals (e.toks ++ rest) = .ok e rest := by
      intro e hle vals rest hg hstop
      obtain ⟨e0, chain, he0, hchain, hfold, htoks⟩ := termSpine hg
      rw [htoks] at hle
      simp only [List.length_append] at hle
      have hstop₂ : stopsAt Lv.fact (opChainToks chain ++ rest) = true :=
        stops_fact_chain (fun p hp => (hchain p hp).1) hstop
      have he0run := Hfact e0 (by omega) vals (opChainToks chain ++ rest)
        he0 hstop₂
      have hsub : ∀ p ∈ chain,
          (p.1 = Token.Plus ∨ p.1 = Token.Minus) ∧
          ∀ rest₂ : List Token, stopsAt Lv.fact rest₂ = true →
            runFactor vals (p.2.toks ++ rest₂) = .ok p.2 rest₂ := by
        intro p hp
        refine ⟨(hchain p hp).1, ?_⟩
        intro rest₂ hs₂
        have h₁ := mem_opChain_len hp
        exact Hfact p.2 (by omega) vals rest₂ (hchain p hp).2 hs₂
      rw [htoks, List.append_assoc, runTerm_eq, he0run]
      dsimp only
      rw [termLoopRun vals chain e0 rest hsub hstop, hfold]
    intro e hle
    exact ⟨Hprim e hle, Hneg e hle, Hexpo e hle, Hfact e hle, Hterm e hle⟩

/-- Parsing the tokens of a term-level derivation followed by junk whose
first token is not an operator yields exactly the derived tree, with the
junk untouched. -/
theorem parseExpr_toks {e : Expr} (hg : Gram Lv.term e) (vals : Vals)
    (rest : List Token) (hstop : stopsAt Lv.term rest = true) :
    parseExpr vals (e.toks ++ rest) = .ok e rest := by
  rw [parseExpr, runExpression_eq]
  exact (gramParse (Expr.toks e).length e (le_refl _)).2.2.2.2 vals rest hg hstop

/-! ### Parser invariants

`PInv` packages what holds of every result of every parsing method on any
input: with the `Eoe` sentinel present the parser never panics (never reads
an out-of-bounds index), every error carries one of the seven fixed
diagnostic messages of `src/parse.rs` together with a token determined by
the message (`errTokOk`: the three missing-delimiter messages carry the
expected delimiter a failed `consume` fabricates, the other four carry a
token of the input), and every success leaves a suffix of the input that
still holds the sentinel. -/

/-- The seven fixed diagnostic messages of `src/parse.rs`. -/
def parseMsgs : List String :=
  ["Missing closing parentheses", "Missing closing pipe", "Unknown variable",
   "Missing base for log function", "Unknown function",
   "Missing opening parentheses", "Expected expression"]

/-- The expected-delimiter tokens a failed `consume` (or the function-head
check) places in a `ParseErr` instead of the token actually present. -/
def expectedToks : List Token := [Token.RParen, Token.Pipe, Token.LParen]

/-- The token a `ParseErr` carries, classified by its message: each of the
three missing-delimiter messages comes only from a failed `consume` (or from
the function-head check) and stores the fixed EXPECTED delimiter token —
`)`, `|`, `(` respectively — not the token actually present; each of the
other four messages stores a token of the input (the token peeked where the
expectation was violated, except "Missing base for log function", which
stores the `log` function token read just before the missing base). -/
def errTokOk (ts : List Token) (er : ParseErr) : Prop :=
  (er.msg = "Missing closing parentheses" → er.token = Token.RParen) ∧
  (er.msg = "Missing closing pipe" → er.token = Token.Pipe) ∧
  (er.msg = "Missing opening parentheses" → er.token = Token.LParen) ∧
  ((er.msg = "Unknown variable" ∨ er.msg = "Unknown function" ∨
      er.msg = "Missing base for log function" ∨
      er.msg = "Expected expression") →
    er.token ∈ ts)

theorem errTokOk_mono {ts₂ ts : List Token} {er : ParseErr}
    (hsub : ∀ x ∈ ts₂, x ∈ ts) (h : errTokOk ts₂ er) : errTokOk ts er :=
  ⟨h.1, h.2.1, h.2.2.1, fun hm => hsub _ (h.2.2.2 hm)⟩

theorem errTokOk_rparen (ts : List Token) :
    errTokOk ts ⟨Token.RParen, "Missing closing parentheses"⟩ := by
  refine ⟨fun _ => rfl, fun hc => ?_, fun hc => ?_, fun hc => ?_⟩ <;> simp at hc

theorem errTokOk_pipe (ts : List Token) :
    errTokOk ts ⟨Token.Pipe, "Missing closing pipe"⟩ := by
  refine ⟨fun hc => ?_, fun _ => rfl, fun hc => ?_, fun hc => ?_⟩ <;> simp at hc

theorem errTokOk_lparen (ts : List Token) :
    errTokOk ts ⟨Token.LParen, "Missing opening parentheses"⟩ := by
  refine ⟨fun hc => ?_, fun hc => ?_, fun _ => rfl, fun hc => ?_⟩ <;> simp at hc

theorem errTokOk_mem {ts : List Token} {t : Token} {msg : String}
    (hmem : t ∈ ts)
    (hmsg : msg = "Unknown variable" ∨ msg = "Unknown function" ∨
      msg = "Missing base for log function" ∨ msg = "Expected expression") :
    errTokOk ts ⟨t, msg⟩ := by
  rcases hmsg with h | h | h | h <;> subst h <;>
    exact ⟨fun hc => by simp at hc, fun hc => by simp at hc,
      fun hc => by simp at hc, fun _ => hmem⟩

def PInv (ts : List Token) (r : PRes) : Prop :=
  (Token.Eoe ∈ ts → r ≠ .crash) ∧
  (∀ er, r = .perr er → er.msg ∈ parseMsgs ∧ errTokOk ts er) ∧
  (∀ e rest, r = .ok e rest →
    rest <:+ ts ∧ (Token.Eoe ∈ ts → Token.Eoe ∈ rest))

def AInv (ts : List Token) (r : ARes) : Prop :=
  (Token.Eoe ∈ ts → r ≠ .crash) ∧
  (∀ er, r = .perr er → er.msg ∈ parseMsgs ∧ errTokOk ts er) ∧
  (∀ a rest, r = .ok a rest →
    rest <:+ ts ∧ (Token.Eoe ∈ ts → Token.Eoe ∈ rest))

theorem PInv_crash_intro {ts : List Token} (h : Token.Eoe ∉ ts) :
    PInv ts .crash := by
  refine ⟨fun he => absurd he h, ?_, ?_⟩
  · intro er h₂; cases h₂
  · intro e rest h₂; cases h₂

theorem PInv_perr_intro {ts : List Token} {er : ParseErr}
    (h1 : er.msg ∈ parseMsgs)
    (h2 : errTokOk ts er) : PInv ts (.perr er) := by
  refine ⟨?_, ?_, ?_⟩
  · intro _ hc; cases hc
  · intro e₂ hc; cases hc; exact ⟨h1, h2⟩
  · intro e rest hc; cases hc

theorem PInv_ok_intro {ts rest : List Token} {e : Expr} (h1 : rest <:+ ts)
    (h2 : Token.Eoe ∈ ts → Token.Eoe ∈ rest) : PInv ts (.ok e rest) := by
  refine ⟨?_, ?_, ?_⟩
  · intro _ hc; cases hc
  · intro e₂ hc; cases hc
  · intro e₂ r₂ hc; cases hc; exact ⟨h1, h2⟩

theorem AInv_crash_intro {ts : List Token} (h : Token.Eoe ∉ ts) :
    AInv ts .crash := by
  refine ⟨fun he => absurd he h, ?_, ?_⟩
  · intro er h₂; cases h₂
  · intro a rest h₂; cases h₂

theorem AInv_perr_intro {ts : List Token} {er : ParseErr}
    (h1 : er.msg ∈ parseMsgs)
    (h2 : errTokOk ts er) : AInv ts (.perr er) := by
  refine ⟨?_, ?_, ?_⟩
  · intro _ hc; cases hc
  · intro e₂ hc; cases hc; exact ⟨h1, h2⟩
  · intro a rest hc; cases hc

theorem AInv_ok_intro {ts rest : List Token} {a : List Expr}
    (h1 : rest <:+ ts) (h2 : Token.Eoe ∈ ts → Token.Eoe ∈ rest) :
    AInv ts (.ok a rest) := by
  refine ⟨?_, ?_, ?_⟩
  · intro _ hc; cases hc
  · intro e₂ hc; cases hc
  · intro a₂ r₂ hc; cases hc; exact ⟨h1, h2⟩

/-- Extend an invariant along an unconsumed non-sentinel head token. -/
theorem PInv_cons {t : Token} {ts : List Token} {r : PRes}
    (hne : t ≠ Token.Eoe) (h : PInv ts r) : PInv (t :: ts) r := by
  obtain ⟨h1, h2, h3⟩ := h
  have hmem : Token.Eoe ∈ t :: ts → Token.Eoe ∈ ts := by
    intro he
    rcases List.mem_cons.1 he with he | he
    · exact absurd he.symm hne
    · exact he
  refine ⟨fun he => h1 (hmem he), ?_, ?_⟩
  · intro er her
    obtain ⟨hm, hk⟩ := h2 er her
    exact ⟨hm, errTokOk_mono (fun x hx => List.mem_cons_of_mem _ hx) hk⟩
  · intro e rest hok
    obtain ⟨hs, hme⟩ := h3 e rest hok
    exact ⟨hs.trans (List.suffix_cons t ts), fun he => hme (hmem he)⟩

/-- Extend an argument-list invariant along an unconsumed non-sentinel head
token. -/
theorem AInv_cons {t : Token} {ts : List Token} {r : ARes}
    (hne : t ≠ Token.Eoe) (h : AInv ts r) : AInv (t :: ts) r := by
  obtain ⟨h1, h2, h3⟩ := h
  have hmem : Token.Eoe ∈ t :: ts → Token.Eoe ∈ ts := by
    intro he
    rcases List.mem_cons.1 he with he | he
    · exact absurd he.symm hne
    · exact he
  refine ⟨fun he => h1 (hmem he), ?_, ?_⟩
  · intro er her
    obtain ⟨hm, hk⟩ := h2 er her
    exact ⟨hm, errTokOk_mono (fun x hx => List.mem_cons_of_mem _ hx) hk⟩
  · intro a rest hok
    obtain ⟨hs, hme⟩ := h3 a rest hok
    exact ⟨hs.trans (List.suffix_cons t ts), fun he => hme (hmem he)⟩

/-- Transfer an invariant from a suffix of the input to the input. -/
theorem PInv.mono {ts₂ ts : List Token} {r : PRes} (hs : ts₂ <:+ ts)
    (hpres : Token.Eoe ∈ ts → Token.Eoe ∈ ts₂) (h : PInv ts₂ r) :
    PInv ts r := by
  obtain ⟨h1, h2, h3⟩ := h
  refine ⟨fun he => h1 (hpres he), ?_, ?_⟩
  · intro er her
    obtain ⟨hm, hk⟩ := h2 er her
    exact ⟨hm, errTokOk_mono (fun x hx => hs.subset hx) hk⟩
  · intro e rest hok
    obtain ⟨hsfx, hme⟩ := h3 e rest hok
    exact ⟨hsfx.trans hs, fun he => hme (hpres he)⟩

/-- The sentinel in a list with a different head is in the tail. -/
theorem eoe_tail {t : Token} {ts : List Token} (h : t ≠ Token.Eoe) :
    Token.Eoe ∈ t :: ts → Token.Eoe ∈ ts := by
  intro he
  rcases List.mem_cons.1 he with he | he
  · exact absurd he.symm h
  · exact he

theorem runExpression_lt {vals : Vals} {ts : List Token} {e : Expr}
    {rest : List Token} (h : runExpression vals ts = .ok e rest) :
    rest.length < ts.length := (expression vals ts).2 e rest h

theorem runTerm_lt {vals : Vals} {ts : List Token} {e : Expr}
    {rest : List Token} (h : runTerm vals ts = .ok e rest) :
    rest.length < ts.length := (term vals ts).2 e rest h

theorem runFactor_lt {vals : Vals} {ts : List Token} {e : Expr}
    {rest : List Token} (h : runFactor vals ts = .ok e rest) :
    rest.length < ts.length := (factor vals ts).2 e rest h

theorem runExponent_lt {vals : Vals} {ts : List Token} {e : Expr}
    {rest : List Token} (h : runExponent vals ts = .ok e rest) :
    rest.length < ts.length := (exponent vals ts).2 e rest h

theorem runNegative_lt {vals : Vals} {ts : List Token} {e : Expr}
    {rest : List Token} (h : runNegative vals ts = .ok e rest) :
    rest.length < ts.length := (negative vals ts).2 e rest h

theorem runPrimary_lt {vals : Vals} {ts : List Token} {e : Expr}
    {rest : List Token} (h : runPrimary vals ts = .ok e rest) :
    rest.length < ts.length := (primary vals ts).2 e rest h

theorem runFuncTail_lt {vals : Vals} {f : Func} {ts : List Token} {e : Expr}
    {rest : List Token} (h : runFuncTail vals f ts = .ok e rest) :
    rest.length < ts.length := (funcTail vals f ts).2 e rest h

theorem runCallTail_lt {vals : Vals} {name : String} {ts : List Token}
    {e : Expr} {rest : List Token}
    (h : runCallTail vals name ts = .ok e rest) :
    rest.length < ts.length := (callTail vals name ts).2 e rest h

theorem runCallArgs_lt {vals : Vals} {acc : List Expr} {ts : List Token}
    {a : List Expr} {rest : List Token}
    (h : runCallArgs vals acc ts = .ok a rest) :
    rest.length < ts.length := (callArgs vals acc ts).2 a rest h

/-- Every parsing method of `src/parse.rs` satisfies the invariant `PInv`
on every input: with the sentinel present it never panics, its errors carry
one of the seven fixed messages together with the message-determined token
of `errTokOk`, and its successes leave a sentinel-preserving suffix. -/
theorem parseInv :
    ∀ n : ℕ, ∀ ts : List Token, ts.length ≤ n → ∀ vals : Vals,
      PInv ts (runPrimary vals ts) ∧
      PInv ts (runNegative vals ts) ∧
      PInv ts (runExponent vals ts) ∧
      PInv ts (runFactor vals ts) ∧
      PInv ts (runTerm vals ts) ∧
      PInv ts (runExpression vals ts) ∧
      (∀ acc, PInv ts (runTermLoop vals acc ts)) ∧
      (∀ acc, PInv ts (runFactorLoop vals acc ts)) ∧
      (∀ acc, PInv ts (runExponentLoop vals acc ts)) ∧
      (∀ f, PInv ts (runFuncTail vals f ts)) ∧
      (∀ name, PInv ts (runCallTail vals name ts)) ∧
      (∀ acc, AInv ts (runCallArgs vals acc ts)) := by
  intro n
  induction n with
  | zero =>
    intro ts hle vals
    have hts : ts = [] := List.length_eq_zero.1 (Nat.le_zero.1 hle)
    subst hts
    have hcr : PInv [] PRes.crash := PInv_crash_intro (by simp)
    have hacr : AInv [] ARes.crash := AInv_crash_intro (by simp)
    have h₂ : runNegative vals [] = .crash := by rw [runNegative_eq]
    have h₃ : runExponent vals [] = .crash := by rw [runExponent_eq, h₂]
    have h₄ : runFactor vals [] = .crash := by rw [runFactor_eq, h₃]
    have h₅ : runTerm vals [] = .crash := by rw [runTerm_eq, h₄]
    have h₆ : runExpression vals [] = .crash := by rw [runExpression_eq, h₅]
    refine ⟨by rw [runPrimary_eq]; exact hcr, by rw [h₂]; exact hcr,
      by rw [h₃]; exact hcr, by rw [h₄]; exact hcr, by rw [h₅]; exact hcr,
      by rw [h₆]; exact hcr, ?_, ?_, ?_, ?_, ?_, ?_⟩
    · intro acc; rw [runTermLoop_eq]; exact hcr
    · intro acc; rw [runFactorLoop_eq]; exact hcr
    · intro acc; rw [runExponentLoop_eq]; exact hcr
    · intro f; rw [runFuncTail_eq]; exact hcr
    · intro name; rw [runCallTail_eq]; exact hcr
    · intro acc; rw [runCallArgs_eq]; exact hacr
  | succ n ih =>
    have ihNeg : ∀ ts : List Token, ts.length ≤ n → ∀ vals,
        PInv ts (runNegative vals ts) := fun ts h vals => (ih ts h vals).2.1
    have ihExpr : ∀ ts : List Token, ts.length ≤ n → ∀ vals,
        PInv ts (runExpression vals ts) :=
      fun ts h vals => (ih ts h vals).2.2.2.2.2.1
    have ihFact : ∀ ts : List Token, ts.length ≤ n → ∀ vals,
        PInv ts (runFactor vals ts) := fun ts h vals => (ih ts h vals).2.2.2.1
    have ihExpo : ∀ ts : List Token, ts.length ≤ n → ∀ vals,
        PInv ts (runExponent vals ts) := fun ts h vals => (ih ts h vals).2.2.1
    have ihTermLoop : ∀ ts : List Token, ts.length ≤ n → ∀ vals acc,
        PInv ts (runTermLoop vals acc ts) :=
      fun ts h vals => (ih ts h vals).2.2.2.2.2.2.1
    have ihFactorLoop : ∀ ts : List Token, ts.length ≤ n → ∀ vals acc,
        PInv ts (runFactorLoop vals acc ts) :=
      fun ts h vals => (ih ts h vals).2.2.2.2.2.2.2.1
    have ihExpoLoop : ∀ ts : List Token, ts.length ≤ n → ∀ vals acc,
        PInv ts (runExponentLoop vals acc ts) :=
      fun ts h vals => (ih ts h vals).2.2.2.2.2.2.2.2.1
    have ihFuncTail : ∀ ts : List Token, ts.length ≤ n → ∀ vals f,
        PInv ts (runFuncTail vals f ts) :=
      fun ts h vals => (ih ts h vals).2.2.2.2.2.2.2.2.2.1
    have ihCallTail : ∀ ts : List Token, ts.length ≤ n → ∀ vals name,
        PInv ts (runCallTail vals name ts) :=
      fun ts h vals => (ih ts h vals).2.2.2.2.2.2.2.2.2.2.1
    have ihCallArgs : ∀ ts : List Token, ts.length ≤ n → ∀ vals acc,
        AInv ts (runCallArgs vals acc ts) :=
      fun ts h vals => (ih ts h vals).2.2.2.2.2.2.2.2.2.2.2
    have HtermLoop : ∀ ts : List Token, ts.length ≤ n + 1 → ∀ vals acc,
        PInv ts (runTermLoop vals acc ts) := by
      intro ts hle vals acc
      rw [runTermLoop_eq]
      cases ts with
      | nil => exact PInv_crash_intro (by simp)
      | cons t rest =>
        have hrest : rest.length ≤ n := by
          simp only [List.length_cons] at hle; omega
        dsimp only
        by_cases hop : t = Token.Plus ∨ t = Token.Minus
        · rw [if_pos hop]
          have htne : t ≠ Token.Eoe := by rcases hop with h | h <;> simp [h]
          have hfac := ihFact rest hrest vals
          rcases hres : runFactor vals rest with ⟨e₂, rest₂⟩ | er | _
          · rw [hres] at hfac
            obtain ⟨hsfx, hpres⟩ := hfac.2.2 e₂ rest₂ rfl
            have hlt := runFactor_lt hres
            have hloop := ihTermLoop rest₂ (by omega) vals
              (Expr.Binary acc t e₂)
            exact PInv.mono
              ((hsfx.trans (List.suffix_cons t rest)))
              (fun he => hpres (eoe_tail htne he)) hloop
          · rw [hres] at hfac
            exact PInv_cons htne hfac
          · rw [hres] at hfac
            exact PInv_cons htne hfac
        · rw [if_neg hop]
          exact PInv_ok_intro List.suffix_rfl (fun he => he)
    have HfactorLoop : ∀ ts : List Token, ts.length ≤ n + 1 → ∀ vals acc,
        PInv ts (runFactorLoop vals acc ts) := by
      intro ts hle vals acc
      rw [runFactorLoop_eq]
      cases ts with
      | nil => exact PInv_crash_intro (by simp)
      | cons t rest =>
        have hrest : rest.length ≤ n := by
          simp only [List.length_cons] at hle; omega
        dsimp only
        by_cases hop : t = Token.Div ∨ t = Token.Mult ∨ t = Token.Mod
        · rw [if_pos hop]
          have htne : t ≠ Token.Eoe := by rcases hop with h | h | h <;> simp [h]
          have hfac := ihExpo rest hrest vals
          rcases hres : runExponent vals rest with ⟨e₂, rest₂⟩ | er | _
          · rw [hres] at hfac
            obtain ⟨hsfx, hpres⟩ := hfac.2.2 e₂ rest₂ rfl
            have hlt := runExponent_lt hres
            have hloop := ihFactorLoop rest₂ (by omega) vals
              (Expr.Binary acc t e₂)
            exact PInv.mono
              ((hsfx.trans (List.suffix_cons t rest)))
              (fun he => hpres (eoe_tail htne he)) hloop
          · rw [hres] at hfac
            exact PInv_cons htne hfac
          · rw [hres] at hfac
            exact PInv_cons htne hfac
        · rw [if_neg hop]
          exact PInv_ok_intro List.suffix_rfl (fun he => he)
    have HexpoLoop : ∀ ts : List Token, ts.length ≤ n + 1 → ∀ vals acc,
        PInv ts (runExponentLoop vals acc ts) := by
      intro ts hle vals acc
      rw [runExponentLoop_eq]
      cases ts with
      | nil => exact PInv_crash_intro (by simp)
      | cons t rest =>
        have hrest : rest.length ≤ n := by
          simp only [List.length_cons] at hle; omega
        dsimp only
        by_cases hop : t = Token.Power
        · rw [if_pos hop]
          have htne : t ≠ Token.Eoe := by simp [hop]
          have hfac := ihNeg rest hrest vals
          rcases hres : runNegative vals rest with ⟨e₂, rest₂⟩ | er | _
          · rw [hres] at hfac
            obtain ⟨hsfx, hpres⟩ := hfac.2.2 e₂ rest₂ rfl
            have hlt := runNegative_lt hres
            have hloop := ihExpoLoop rest₂ (by omega) vals
              (Expr.Exponent acc e₂)
            exact PInv.mono
              ((hsfx.trans (List.suffix_cons t rest)))
              (fun he => hpres (eoe_tail htne he)) hloop
          · rw [hres] at hfac
            exact PInv_cons htne hfac
          · rw [hres] at hfac
            exact PInv_cons htne hfac
        · rw [if_neg hop]
          exact PInv_ok_intro List.suffix_rfl (fun he => he)
    have HfuncTail : ∀ ts : List Token, ts.length ≤ n + 1 → ∀ vals f,
        PInv ts (runFuncTail vals f ts) := by
      intro ts hle vals f
      rw [runFuncTail_eq]
      cases ts with
      | nil => exact PInv_crash_intro (by simp)
      | cons t rest =>
        have hrest : rest.length ≤ n := by
          simp only [List.length_cons] at hle; omega
        have hperr : ∀ t₂ : Token, PInv (t₂ :: rest)
            (.perr ⟨Token.LParen, "Missing opening parentheses"⟩) :=
          fun t₂ => PInv_perr_intro (by simp [parseMsgs]) (errTokOk_lparen _)
        cases t <;> try exact hperr _
        dsimp only
        have hsub := ihExpr rest hrest vals
        rcases hres : runExpression vals rest with ⟨e₂, rest₂⟩ | er | _
        · rw [hres] at hsub
          obtain ⟨hsfx, hpres⟩ := hsub.2.2 e₂ rest₂ rfl
          cases rest₂ with
          | nil =>
            exact PInv_crash_intro (fun he =>
              absurd (hpres (eoe_tail (by simp) he)) (by simp))
          | cons u rest₃ =>
            have hperr₂ : PInv (Token.LParen :: rest)
                (.perr ⟨Token.RParen, "Missing closing parentheses"⟩) :=
              PInv_perr_intro (by simp [parseMsgs]) (errTokOk_rparen _)
            cases u <;> try exact hperr₂
            exact PInv_ok_intro
              (((List.suffix_cons _ _).trans hsfx).trans
                (List.suffix_cons _ _))
              (fun he =>
                eoe_tail (by simp) (hpres (eoe_tail (by simp) he)))
        · rw [hres] at hsub
          exact PInv_cons (by simp) hsub
        · rw [hres] at hsub
          exact PInv_cons (by simp) hsub
    have HcallArgs : ∀ ts : List Token, ts.length ≤ n + 1 → ∀ vals acc,
        AInv ts (runCallArgs vals acc ts) := by
      intro ts hle vals acc
      rw [runCallArgs_eq]
      cases ts with
      | nil => exact AInv_crash_intro (by simp)
      | cons t rest =>
        have hrest : rest.length ≤ n := by
          simp only [List.length_cons] at hle; omega
        have hperrA : ∀ t₂ : Token, AInv (t₂ :: rest)
            (.perr ⟨Token.RParen, "Missing closing parentheses"⟩) :=
          fun t₂ => AInv_perr_intro (by simp [parseMsgs]) (errTokOk_rparen _)
        cases t <;> try exact hperrA _
        case RParen =>
          exact AInv_ok_intro (List.suffix_cons _ _) (eoe_tail (by simp))
        case Comma =>
          dsimp only
          have hsub := ihExpr rest hrest vals
          rcases hres : runExpression vals rest with ⟨e₂, rest₂⟩ | er | _
          · rw [hres] at hsub
            obtain ⟨hsfx, hpres⟩ := hsub.2.2 e₂ rest₂ rfl
            have hlt := runExpression_lt hres
            have hargs := ihCallArgs rest₂ (by omega) vals (acc ++ [e₂])
            have htr : rest₂ <:+ Token.Comma :: rest :=
              hsfx.trans (List.suffix_cons _ _)
            obtain ⟨g1, g2, g3⟩ := hargs
            refine ⟨?_, ?_, ?_⟩
            · intro he
              exact g1 (hpres (eoe_tail (by simp) he))
            · intro er her
              obtain ⟨hm, hk⟩ := g2 er her
              exact ⟨hm, errTokOk_mono (fun x hx => htr.subset hx) hk⟩
            · intro a r₂ hok
              obtain ⟨hs₂, hm₂⟩ := g3 a r₂ hok
              exact ⟨hs₂.trans htr,
                fun he => hm₂ (hpres (eoe_tail (by simp) he))⟩
          · rw [hres] at hsub
            obtain ⟨hm, hk⟩ := hsub.2.1 er rfl
            exact AInv_perr_intro hm
              (errTokOk_mono (fun x hx => List.mem_cons_of_mem _ hx) hk)
          · rw [hres] at hsub
            exact AInv_crash_intro
              (fun he => hsub.1 (eoe_tail (by simp) he) rfl)
    have Hprim : ∀ ts : List Token, ts.length ≤ n + 1 → ∀ vals,
        PInv ts (runPrimary vals ts) := by
      intro ts hle vals
      rw [runPrimary_eq]
      cases ts with
      | nil => exact PInv_crash_intro (by simp)
      | cons t rest =>
        have hrest : rest.length ≤ n := by
          simp only [List.length_cons] at hle; omega
        have hperr : ∀ t₂ : Token, PInv (t₂ :: rest)
            (.perr ⟨t₂, "Expected expression"⟩) :=
          fun t₂ => PInv_perr_intro (by simp [parseMsgs])
            (errTokOk_mem (by simp) (Or.inr (Or.inr (Or.inr rfl))))
        cases t <;> try exact hperr _
        case Num q =>
          exact PInv_ok_intro (List.suffix_cons _ _) (eoe_tail (by simp))
        case LParen =>
          dsimp only
          have hsub := ihExpr rest hrest vals
          rcases hres : runExpression vals rest with ⟨e₂, rest₂⟩ | er | _
          · rw [hres] at hsub
            obtain ⟨hsfx, hpres⟩ := hsub.2.2 e₂ rest₂ rfl
            cases rest₂ with
            | nil =>
              exact PInv_crash_intro (fun he =>
                absurd (hpres (eoe_tail (by simp) he)) (by simp))
            | cons u rest₃ =>
              have hperr₂ : PInv (Token.LParen :: rest)
                  (.perr ⟨Token.RParen, "Missing closing parentheses"⟩) :=
                PInv_perr_intro (by simp [parseMsgs]) (errTokOk_rparen _)
              cases u <;> try exact hperr₂
              exact PInv_ok_intro
                (((List.suffix_cons _ _).trans hsfx).trans
                  (List.suffix_cons _ _))
                (fun he =>
                  eoe_tail (by simp) (hpres (eoe_tail (by simp) he)))
          · rw [hres] at hsub
            exact PInv_cons (by simp) hsub
          · rw [hres] at hsub
            exact PInv_cons (by simp) hsub
        case Pipe =>
          dsimp only
          have hsub := ihExpr rest hrest vals
          rcases hres : runExpression vals rest with ⟨e₂, rest₂⟩ | er | _
          · rw [hres] at hsub
            obtain ⟨hsfx, hpres⟩ := hsub.2.2 e₂ rest₂ rfl
            cases rest₂ with
            | nil =>
              exact PInv_crash_intro (fun he =>
                absurd (hpres (eoe_tail (by simp) he)) (by simp))
            | cons u rest₃ =>
              have hperr₂ : PInv (Token.Pipe :: rest)
                  (.perr ⟨Token.Pipe, "Missing closing pipe"⟩) :=
                PInv_perr_intro (by simp [parseMsgs]) (errTokOk_pipe _)
              cases u <;> try exact hperr₂
              exact PInv_ok_intro
                (((List.suffix_cons _ _).trans hsfx).trans
                  (List.suffix_cons _ _))
                (fun he =>
                  eoe_tail (by simp) (hpres (eoe_tail (by simp) he)))
          · rw [hres] at hsub
            exact PInv_cons (by simp) hsub
          · rw [hres] at hsub
            exact PInv_cons (by simp) hsub
        case Var c =>
          dsimp only
          rcases hlk : (vals.lookup c : Option ℚ) with _ | q
          · simp only [hlk]
            exact PInv_perr_intro (by simp [parseMsgs])
              (errTokOk_mem (by simp) (Or.inl rfl))
          · simp only [hlk]
            exact PInv_ok_intro (List.suffix_cons _ _) (eoe_tail (by simp))
        case Func fname =>
          dsimp only
          by_cases h₁ : fname = "sin"
          · rw [if_pos h₁]
            exact PInv_cons (by simp) (ihFuncTail rest hrest vals Func.Sin)
          · rw [if_neg h₁]
            by_cases h₂ : fname = "cos"
            · rw [if_pos h₂]
              exact PInv_cons (by simp) (ihFuncTail rest hrest vals Func.Cos)
            · rw [if_neg h₂]
              by_cases h₃ : fname = "tan"
              · rw [if_pos h₃]
                exact PInv_cons (by simp) (ihFuncTail rest hrest vals Func.Tan)
              · rw [if_neg h₃]
                by_cases h₄ : fname = "ln"
                · rw [if_pos h₄]
                  exact PInv_cons (by simp) (ihFuncTail rest hrest vals Func.Ln)
                · rw [if_neg h₄]
                  by_cases h₅ : fname = "log"
                  · rw [if_pos h₅]
                    cases rest with
                    | nil => exact PInv_crash_intro (by simp)
                    | cons u rest₂ =>
                      have hperr₃ : PInv (Token.Func fname :: (u :: rest₂))
                          (.perr ⟨Token.Func fname,
                            "Missing base for log function"⟩) :=
                        PInv_perr_intro (by simp [parseMsgs])
                          (errTokOk_mem (by simp)
                            (Or.inr (Or.inr (Or.inl rfl))))
                      cases u <;> try exact hperr₃
                      rename_i base
                      exact PInv_cons (by simp) (PInv_cons (by simp)
                        (ihFuncTail rest₂
                          (by simp only [List.length_cons] at hrest; omega)
                          vals (Func.Log base)))
                  · rw [if_neg h₅]
                    exact PInv_perr_intro (by simp [parseMsgs])
                      (errTokOk_mem (by simp) (Or.inr (Or.inl rfl)))
        case Ident name =>
          dsimp only
          cases rest with
          | nil =>
            exact PInv_ok_intro List.nil_suffix
              (by intro he; simp at he)
          | cons u rest₂ =>
            dsimp only
            by_cases hu : u = Token.LParen
            · rw [if_pos hu]
              subst hu
              exact PInv_cons (by simp) (PInv_cons (by simp)
                (ihCallTail rest₂
                  (by simp only [List.length_cons] at hrest; omega)
                  vals name))
            · rw [if_neg hu]
              exact PInv_ok_intro (List.suffix_cons _ _) (eoe_tail (by simp))
    have Hneg : ∀ ts : List Token, ts.length ≤ n + 1 → ∀ vals,
        PInv ts (runNegative vals ts) := by
      intro ts hle vals
      rw [runNegative_eq]
      cases ts with
      | nil => exact PInv_crash_intro (by simp)
      | cons t rest =>
        have hrest : rest.length ≤ n := by
          simp only [List.length_cons] at hle; omega
        cases t <;> try exact Hprim _ hle vals
        dsimp only
        have hsub := ihNeg rest hrest vals
        rcases hres : runNegative vals rest with ⟨e₂, rest₂⟩ | er | _
        · rw [hres] at hsub
          obtain ⟨hsfx, hpres⟩ := hsub.2.2 e₂ rest₂ rfl
          exact PInv_ok_intro (hsfx.trans (List.suffix_cons _ _))
            (fun he => hpres (eoe_tail (by simp) he))
        · rw [hres] at hsub
          exact PInv_cons (by simp) hsub
        · rw [hres] at hsub
          exact PInv_cons (by simp) hsub
    have Hexpo : ∀ ts : List Token, ts.length ≤ n + 1 → ∀ vals,
        PInv ts (runExponent vals ts) := by
      intro ts hle vals
      rw [runExponent_eq]
      have hsub := Hneg ts hle vals
      rcases hres : runNegative vals ts with ⟨e₂, rest₂⟩ | er | _
      · rw [hres] at hsub
        obtain ⟨hsfx, hpres⟩ := hsub.2.2 e₂ rest₂ rfl
        have hlt := runNegative_lt hres
        exact PInv.mono hsfx hpres (ihExpoLoop rest₂ (by omega) vals e₂)
      · rw [hres] at hsub
        exact hsub
      · rw [hres] at hsub
        exact hsub
    have Hfact : ∀ ts : List Token, ts.length ≤ n + 1 → ∀ vals,
        PInv ts (runFactor vals ts) := by
      intro ts hle vals
      rw [runFactor_eq]
      have hsub := Hexpo ts hle vals
      rcases hres : runExponent vals ts with ⟨e₂, rest₂⟩ | er | _
      · rw [hres] at hsub
        obtain ⟨hsfx, hpres⟩ := hsub.2.2 e₂ rest₂ rfl
        have hlt := runExponent_lt hres
        exact PInv.mono hsfx hpres (ihFactorLoop rest₂ (by omega) vals e₂)
      · rw [hres] at hsub
        exact hsub
      · rw [hres] at hsub
        exact hsub
    have Hterm : ∀ ts : List Token, ts.length ≤ n + 1 → ∀ vals,
        PInv ts (runTerm vals ts) := by
      intro ts hle vals
      rw [runTerm_eq]
      have hsub := Hfact ts hle vals
      rcases hres : runFactor vals ts with ⟨e₂, rest₂⟩ | er | _
      · rw [hres] at hsub
        obtain ⟨hsfx, hpres⟩ := hsub.2.2 e₂ rest₂ rfl
        have hlt := runFactor_lt hres
        exact PInv.mono hsfx hpres (ihTermLoop rest₂ (by omega) vals e₂)
      · rw [hres] at hsub
        exact hsub
      · rw [hres] at hsub
        exact hsub
    have Hexpr : ∀ ts : List Token, ts.length ≤ n + 1 → ∀ vals,
        PInv ts (runExpression vals ts) := by
      intro ts hle vals
      rw [runExpression_eq]
      exact Hterm ts hle vals
    have HcallTail : ∀ ts : List Token, ts.length ≤ n + 1 → ∀ vals name,
        PInv ts (runCallTail vals name ts) := by
      intro ts hle vals name
      rw [runCallTail_eq]
      cases ts with
      | nil => exact PInv_crash_intro (by simp)
      | cons t rest =>
        dsimp only
        by_cases ht : t = Token.RParen
        · rw [if_pos ht]
          subst ht
          exact PInv_ok_intro (List.suffix_cons _ _) (eoe_tail (by simp))
        · rw [if_neg ht]
          have hsub := Hexpr (t :: rest) hle vals
          rcases hres : runExpression vals (t :: rest) with ⟨e₂, rest₂⟩ | er | _
          · dsimp only
            rw [hres] at hsub
            obtain ⟨hsfx, hpres⟩ := hsub.2.2 e₂ rest₂ rfl
            have hlt := runExpression_lt hres
            have hargs := ihCallArgs rest₂
              (by simp only [List.length_cons] at hle hlt; omega) vals [e₂]
            rcases hres₂ : runCallArgs vals [e₂] rest₂ with
              ⟨args, rest₃⟩ | er | _
            · rw [hres₂] at hargs
              obtain ⟨hs₂, hp₂⟩ := hargs.2.2 args rest₃ rfl
              exact PInv_ok_intro (hs₂.trans hsfx)
                (fun he => hp₂ (hpres he))
            · rw [hres₂] at hargs
              obtain ⟨hm, hk⟩ := hargs.2.1 er rfl
              exact PInv_perr_intro hm
                (errTokOk_mono (fun x hx => hsfx.subset hx) hk)
            · rw [hres₂] at hargs
              exact PInv_crash_intro (fun he => hargs.1 (hpres he) rfl)
          · rw [hres] at hsub
            exact hsub
          · rw [hres] at hsub
            exact hsub
    intro ts hle vals
    exact ⟨Hprim ts hle vals, Hneg ts hle vals, Hexpo ts hle vals,
      Hfact ts hle vals, Hterm ts hle vals, Hexpr ts hle vals,
      HtermLoop ts hle vals, HfactorLoop ts hle vals, HexpoLoop ts hle vals,
      HfuncTail ts hle vals, HcallTail ts hle vals, HcallArgs ts hle vals⟩

/-! ### The tokenizer on formatted text

The lemmas below show that the tokenizer cuts the text `Expr::format`
produces back into exactly the token sequence `Expr.toks` of the tree, for
trees whose numeric literals are nonnegative integers and that use no
`log` built-in (`Func::Log` formats its base in parentheses, which the
parser's bare-numeral base syntax cannot read back — see the `C4`
counterexample). -/

theorem digitChar_spec (k : ℕ) :
    (digitChar k).isDigit = true ∧ (digitChar k).isWhitespace = false ∧
      (digitChar k).isAlpha = false ∧ isNumChar (digitChar k) = true ∧
      (digitChar k).toNat - 48 = k % 10 := by
  have h : k % 10 < 10 := Nat.mod_lt _ (by norm_num)
  unfold digitChar
  interval_cases h₂ : k % 10 <;> simp_all <;> decide

theorem mem_natDigits_digit {n : ℕ} {c : Char} (h : c ∈ natDigits n) :
    ∃ k, c = digitChar k := by
  induction n using Nat.strong_induction_on with
  | _ n ih =>
    cases n with
    | zero => simp [natDigits] at h
    | succ m =>
      rw [natDigits] at h
      rcases List.mem_append.1 h with h | h
      · exact ih ((m + 1) / 10) (Nat.div_lt_self (Nat.succ_pos m) (by norm_num)) h
      · simp at h
        exact ⟨(m + 1) % 10, h⟩

theorem digitsVal_append_one (l : List Char) (c : Char) :
    digitsVal (l ++ [c]) = digitsVal l * 10 + (c.toNat - 48) := by
  simp [digitsVal, List.foldl_append]

theorem digitsVal_natDigits (n : ℕ) : digitsVal (natDigits n) = n := by
  induction n using Nat.strong_induction_on with
  | _ n ih =>
    cases n with
    | zero => simp [natDigits, digitsVal]
    | succ m =>
      rw [natDigits, digitsVal_append_one,
        ih ((m + 1) / 10) (Nat.div_lt_self (Nat.succ_pos m) (by norm_num))]
      rw [(digitChar_spec ((m + 1) % 10)).2.2.2.2]
      omega

theorem mem_natChars_digit {n : ℕ} {c : Char} (h : c ∈ natChars n) :
    ∃ k, c = digitChar k := by
  unfold natChars at h
  split at h
  · simp at h
    exact ⟨0, by rw [h]; decide⟩
  · exact mem_natDigits_digit h

theorem digitsVal_natChars (n : ℕ) : digitsVal (natChars n) = n := by
  unfold natChars
  split
  · rename_i h
    subst h
    decide
  · exact digitsVal_natDigits n

theorem natChars_ne_nil (n : ℕ) : natChars n ≠ [] := by
  unfold natChars
  split
  · simp
  · rename_i h
    cases n with
    | zero => exact absurd rfl h
    | succ m =>
      rw [natDigits]
      simp

theorem numVal_natChars (n : ℕ) : numVal (natChars n) = some (n : ℚ) := by
  unfold numVal
  rw [if_pos, if_neg]
  · rw [show digitsVal (natChars n) = n from digitsVal_natChars n]
  · simp [List.isEmpty_iff, natChars_ne_nil n]
  · rw [List.all_eq_true]
    intro c hc
    obtain ⟨k, hk⟩ := mem_natChars_digit hc
    rw [hk]
    exact (digitChar_spec k).1

/-- A boundary for the tokenizer's greedy scans: the remaining text is empty
or starts with a character that continues neither a numeral nor an
identifier (in formatted output: an operator or a delimiter). -/
def fmtBoundary : List Char → Prop
  | [] => True
  | c :: _ => isNumChar c = false ∧ c.isAlpha = false ∧ isIdentChar c = false

theorem scan_all {p : Char → Bool} {l rest : List Char}
    (h : ∀ x ∈ l, p x = true)
    (h₂ : match rest with | [] => True | c :: _ => p c = false) :
    (l ++ rest).takeWhile p = l ∧ (l ++ rest).dropWhile p = rest := by
  induction l with
  | nil =>
    cases rest with
    | nil => simp
    | cons c cs =>
      simp only [List.nil_append, List.takeWhile_cons, List.dropWhile_cons]
      simp at h₂
      simp [h₂]
  | cons x xs ih =>
    have hx := h x (by simp)
    have ihs := ih (fun y hy => h y (by simp [hy]))
    simp only [List.cons_append, List.takeWhile_cons, List.dropWhile_cons,
      hx, ihs.1, ihs.2]
    simp

theorem tokenizeCore_num (n : ℕ) (rest : List Char) (hb : fmtBoundary rest) :
    tokenizeCore (natChars n ++ rest) =
      (tokenizeCore rest).map (fun l => Token.Num (n : ℚ) :: l) := by
  obtain ⟨c, l, hcl⟩ : ∃ c l, natChars n = c :: l := by
    cases h : natChars n with
    | nil => exact absurd h (natChars_ne_nil n)
    | cons c l => exact ⟨c, l, rfl⟩
  have hmemdig : ∀ x ∈ natChars n, isNumChar x = true := by
    intro x hx
    obtain ⟨k, hk⟩ := mem_natChars_digit hx
    rw [hk]
    exact (digitChar_spec k).2.2.2.1
  obtain ⟨k, hk⟩ := mem_natChars_digit (hcl ▸ List.mem_cons_self c l)
  have hspec := digitChar_spec k
  have hscan := @scan_all isNumChar l rest
    (fun y hy => hmemdig y (by rw [hcl]; exact List.mem_cons_of_mem _ hy))
    (by cases rest with
        | nil => trivial
        | cons r rs => exact hb.1)
  rw [hcl, List.cons_append, tokenizeCore.eq_def]
  dsimp only
  rw [if_neg (by rw [hk, hspec.2.1]; simp)]
  rw [if_pos (by rw [hk]; exact hspec.2.2.2.1)]
  rw [hscan.1, hscan.2, ← hcl, numVal_natChars n]

theorem tokenizeCore_plusc (cs : List Char) :
    tokenizeCore ('+' :: cs) =
      (tokenizeCore cs).map (fun l => Token.Plus :: l) := by
  rw [tokenizeCore.eq_def]
  dsimp only
  rw [if_neg (by decide)]
  rw [if_neg (by decide)]
  rw [if_neg (by decide)]
  rw [if_pos rfl]

theorem tokenizeCore_minusc (cs : List Char) :
    tokenizeCore ('-' :: cs) =
      (tokenizeCore cs).map (fun l => Token.Minus :: l) := by
  rw [tokenizeCore.eq_def]
  dsimp only
  rw [if_neg (by decide)]
  rw [if_neg (by decide)]
  rw [if_neg (by decide)]
  rw [if_neg (by decide)]
  rw [if_pos rfl]

theorem tokenizeCore_multc (cs : List Char) :
    tokenizeCore ('*' :: cs) =
      (tokenizeCore cs).map (fun l => Token.Mult :: l) := by
  rw [tokenizeCore.eq_def]
  dsimp only
  rw [if_neg (by decide)]
  rw [if_neg (by decide)]
  rw [if_neg (by decide)]
  rw [if_neg (by decide)]
  rw [if_neg (by decide)]
  rw [if_pos rfl]

theorem tokenizeCore_divc (cs : List Char) :
    tokenizeCore ('/' :: cs) =
      (tokenizeCore cs).map (fun l => Token.Div :: l) := by
  rw [tokenizeCore.eq_def]
  dsimp only
  rw [if_neg (by decide)]
  rw [if_neg (by decide)]
  rw [if_neg (by decide)]
  rw [if_neg (by decide)]
  rw [if_neg (by decide)]
  rw [if_neg (by decide)]
  rw [if_pos rfl]

theorem tokenizeCore_modc (cs : List Char) :
    tokenizeCore ('%' :: cs) =
      (tokenizeCore cs).map (fun l => Token.Mod :: l) := by
  rw [tokenizeCore.eq_def]
  dsimp only
  rw [if_neg (by decide)]
  rw [if_neg (by decide)]
  rw [if_neg (by decide)]
  rw [if_neg (by decide)]
  rw [if_neg (by decide)]
  rw [if_neg (by decide)]
  rw [if_neg (by decide)]
  rw [if_pos rfl]

theorem tokenizeCore_powc (cs : List Char) :
    tokenizeCore ('^' :: cs) =
      (tokenizeCore cs).map (fun l => Token.Power :: l) := by
  rw [tokenizeCore.eq_def]
  dsimp only
  rw [if_neg (by decide)]
  rw [if_neg (by decide)]
  rw [if_neg (by decide)]
  rw [if_neg (by decide)]
  rw [if_neg (by decide)]
  rw [if_neg (by decide)]
  rw [if_neg (by decide)]
  rw [if_neg (by decide)]
  rw [if_pos rfl]

theorem tokenizeCore_lparc (cs : List Char) :
    tokenizeCore ('(' :: cs) =
      (tokenizeCore cs).map (fun l => Token.LParen :: l) := by
  rw [tokenizeCore.eq_def]
  dsimp only
  rw [if_neg (by decide)]
  rw [if_neg (by decide)]
  rw [if_neg (by decide)]
  rw [if_neg (by decide)]
  rw [if_neg (by decide)]
  rw [if_neg (by decide)]
  rw [if_neg (by decide)]
  rw [if_neg (by decide)]
  rw [if_neg (by decide)]
  rw [if_pos rfl]

theorem tokenizeCore_rparc (cs : List Char) :
    tokenizeCore (')' :: cs) =
      (tokenizeCore cs).map (fun l => Token.RParen :: l) := by
  rw [tokenizeCore.eq_def]
  dsimp only
  rw [if_neg (by decide)]
  rw [if_neg (by decide)]
  rw [if_neg (by decide)]
  rw [if_neg (by decide)]
  rw [if_neg (by decide)]
  rw [if_neg (by decide)]
  rw [if_neg (by decide)]
  rw [if_neg (by decide)]
  rw [if_neg (by decide)]
  rw [if_neg (by decide)]
  rw [if_pos rfl]

theorem tokenizeCore_pipec (cs : List Char) :
    tokenizeCore ('|' :: cs) =
      (tokenizeCore cs).map (fun l => Token.Pipe :: l) := by
  rw [tokenizeCore.eq_def]
  dsimp only
  rw [if_neg (by decide)]
  rw [if_neg (by decide)]
  rw [if_neg (by decide)]
  rw [if_neg (by decide)]
  rw [if_neg (by decide)]
  rw [if_neg (by decide)]
  rw [if_neg (by decide)]
  rw [if_neg (by decide)]
  rw [if_neg (by decide)]
  rw [if_neg (by decide)]
  rw [if_neg (by decide)]
  rw [if_pos rfl]

theorem scan_ident_nil {cs : List Char} (hb : fmtBoundary cs) :
    cs.takeWhile isIdentChar = [] ∧ cs.dropWhile isIdentChar = cs := by
  have h := @scan_all isIdentChar [] cs
    (by simp)
    (by cases cs with
        | nil => trivial
        | cons r rs => exact hb.2.2)
  simpa using h

theorem tokenizeCore_sin (cs : List Char) (hb : fmtBoundary cs) :
    tokenizeCore ('s' :: 'i' :: 'n' :: cs) =
      (tokenizeCore cs).map (fun l => Token.Func "sin" :: l) := by
  have hscan := @scan_all isIdentChar ['i', 'n'] cs
    (by decide)
    (by cases cs with
        | nil => trivial
        | cons r rs => exact hb.2.2)
  simp only [List.cons_append, List.nil_append] at hscan
  rw [tokenizeCore.eq_def]
  dsimp only
  rw [if_neg (by decide), if_neg (by decide), if_pos (by decide),
    hscan.1, hscan.2]
  rfl

theorem tokenizeCore_cos (cs : List Char) (hb : fmtBoundary cs) :
    tokenizeCore ('c' :: 'o' :: 's' :: cs) =
      (tokenizeCore cs).map (fun l => Token.Func "cos" :: l) := by
  have hscan := @scan_all isIdentChar ['o', 's'] cs
    (by decide)
    (by cases cs with
        | nil => trivial
        | cons r rs => exact hb.2.2)
  simp only [List.cons_append, List.nil_append] at hscan
  rw [tokenizeCore.eq_def]
  dsimp only
  rw [if_neg (by decide), if_neg (by decide), if_pos (by decide),
    hscan.1, hscan.2]
  rfl

theorem tokenizeCore_tan (cs : List Char) (hb : fmtBoundary cs) :
    tokenizeCore ('t' :: 'a' :: 'n' :: cs) =
      (tokenizeCore cs).map (fun l => Token.Func "tan" :: l) := by
  have hscan := @scan_all isIdentChar ['a', 'n'] cs
    (by decide)
    (by cases cs with
        | nil => trivial
        | cons r rs => exact hb.2.2)
  simp only [List.cons_append, List.nil_append] at hscan
  rw [tokenizeCore.eq_def]
  dsimp only
  rw [if_neg (by decide), if_neg (by decide), if_pos (by decide),
    hscan.1, hscan.2]
  rfl

theorem tokenizeCore_ln (cs : List Char) (hb : fmtBoundary cs) :
    tokenizeCore ('l' :: 'n' :: cs) =
      (tokenizeCore cs).map (fun l => Token.Func "ln" :: l) := by
  have hscan := @scan_all isIdentChar ['n'] cs
    (by decide)
    (by cases cs with
        | nil => trivial
        | cons r rs => exact hb.2.2)
  simp only [List.cons_append, List.nil_append] at hscan
  rw [tokenizeCore.eq_def]
  dsimp only
  rw [if_neg (by decide), if_neg (by decide), if_pos (by decide),
    hscan.1, hscan.2]
  rfl

/-- Trees whose formatted text tokenizes back to their own token sequence:
grammar-internal shapes with no `log` built-in (its base prints inside
parentheses, which the parser's bare-numeral base syntax cannot read back),
no identifiers or calls, and nonnegative-integer literals (the only values
whose `f64` display the integral numeral scan reproduces exactly). -/
def fmtOk : Expr → Prop
  | .Num q => q.den = 1 ∧ 0 ≤ q
  | .Negative e => fmtOk e
  | .Grouping e => fmtOk e
  | .Abs e => fmtOk e
  | .Binary l op r => fmtOk l ∧
      (op = Token.Plus ∨ op = Token.Minus ∨ op = Token.Div ∨
        op = Token.Mult ∨ op = Token.Mod) ∧ fmtOk r
  | .Exponent b e => fmtOk b ∧ fmtOk e
  | .Func f a => (match f with | .Log _ => False | _ => True) ∧ fmtOk a
  | .Ident _ => False
  | .Call _ _ => False

theorem natAbs_cast_rat {q : ℚ} (hden : q.den = 1) (hnn : 0 ≤ q) :
    ((q.num.natAbs : ℕ) : ℚ) = q := by
  have h₁ : (0 : ℤ) ≤ q.num := Rat.num_nonneg.2 hnn
  have h₂ : (q.num : ℚ) = q := by
    conv_rhs => rw [← Rat.num_div_den q]
    rw [hden]
    simp
  calc ((q.num.natAbs : ℕ) : ℚ) = |(q.num : ℚ)| := by rw [Int.cast_natAbs, Int.cast_abs]
    _ = (q.num : ℚ) := abs_of_nonneg (by exact_mod_cast h₁)
    _ = q := h₂

theorem ratChars_natVal {q : ℚ} (hden : q.den = 1) (hnn : 0 ≤ q) :
    ratChars q = natChars q.num.natAbs := by
  unfold ratChars
  rw [if_neg (not_lt.2 hnn), if_pos hden]
  simp

theorem fmtChars_pos (e : Expr) (hok : fmtOk e) :
    0 < (Expr.fmtChars e).length := by
  cases e with
  | Num q =>
    have h1 : 0 < (natChars q.num.natAbs).length :=
      List.length_pos.2 (natChars_ne_nil _)
    rw [show Expr.fmtChars (.Num q) = ratChars q from by simp [Expr.fmtChars]]
    unfold ratChars
    rw [List.length_append, List.length_append]
    omega
  | Negative e' => simp [Expr.fmtChars]
  | Grouping e' => simp [Expr.fmtChars]
  | Abs e' => simp [Expr.fmtChars]
  | Binary l op r =>
    obtain ⟨-, hop, -⟩ := hok
    rcases hop with h | h | h | h | h <;> subst h <;>
      simp [Expr.fmtChars, Token.fmtChars]
  | Exponent b e' =>
    simp [Expr.fmtChars]
  | Func f a =>
    simp [Expr.fmtChars]
  | Ident name => exact hok.elim
  | Call name args => exact hok.elim

theorem mkFmtBoundary {c : Char} (cs : List Char)
    (h1 : isNumChar c = false) (h2 : c.isAlpha = false)
    (h3 : isIdentChar c = false) : fmtBoundary (c :: cs) :=
  ⟨h1, h2, h3⟩

/-- Formatted text of a `fmtOk` tree tokenizes back to exactly the tree's
token sequence, in front of any remaining input that starts at a token
boundary. -/
theorem tokenizeFmt :
    ∀ n : ℕ, ∀ e : Expr, (Expr.fmtChars e).length ≤ n → fmtOk e →
      ∀ rest : List Char, fmtBoundary rest →
        tokenizeCore (Expr.fmtChars e ++ rest) =
          (tokenizeCore rest).map (fun l => Expr.toks e ++ l) := by
  intro n
  induction n with
  | zero =>
    intro e hle hok rest hb
    exact absurd hle (by have := fmtChars_pos e hok; omega)
  | succ n ih =>
    intro e hle hok rest hb
    cases e with
    | Num q =>
      obtain ⟨hden, hnn⟩ := hok
      rw [show Expr.fmtChars (.Num q) = natChars q.num.natAbs from by
        simp [Expr.fmtChars, ratChars_natVal hden hnn]]
      rw [tokenizeCore_num _ _ hb, natAbs_cast_rat hden hnn]
      cases htk : tokenizeCore rest <;> simp [Expr.toks, Except.map]
    | Negative e' =>
      have hle' : (Expr.fmtChars e').length ≤ n := by
        rw [show Expr.fmtChars (.Negative e') = '-' :: Expr.fmtChars e' from by
          simp [Expr.fmtChars]] at hle
        simp at hle
        omega
      rw [show Expr.fmtChars (.Negative e') ++ rest =
          '-' :: (Expr.fmtChars e' ++ rest) from by simp [Expr.fmtChars]]
      rw [tokenizeCore_minusc]
      rw [ih e' hle' hok rest hb]
      cases htk : tokenizeCore rest <;> simp [Expr.toks, Except.map]
    | Grouping e' =>
      have hle' : (Expr.fmtChars e').length ≤ n := by
        rw [show Expr.fmtChars (.Grouping e') =
            '(' :: (Expr.fmtChars e' ++ [')']) from by simp [Expr.fmtChars]] at hle
        simp at hle
        omega
      rw [show Expr.fmtChars (.Grouping e') ++ rest =
          '(' :: (Expr.fmtChars e' ++ (')' :: rest)) from by simp [Expr.fmtChars]]
      rw [tokenizeCore_lparc]
      rw [ih e' hle' hok (')' :: rest)
        (mkFmtBoundary _ (by decide) (by decide) (by decide))]
      rw [tokenizeCore_rparc]
      cases htk : tokenizeCore rest <;> simp [Expr.toks, Except.map]
    | Abs e' =>
      have hle' : (Expr.fmtChars e').length ≤ n := by
        rw [show Expr.fmtChars (.Abs e') =
            '|' :: (Expr.fmtChars e' ++ ['|']) from by simp [Expr.fmtChars]] at hle
        simp at hle
        omega
      rw [show Expr.fmtChars (.Abs e') ++ rest =
          '|' :: (Expr.fmtChars e' ++ ('|' :: rest)) from by simp [Expr.fmtChars]]
      rw [tokenizeCore_pipec]
      rw [ih e' hle' hok ('|' :: rest)
        (mkFmtBoundary _ (by decide) (by decide) (by decide))]
      rw [tokenizeCore_pipec]
      cases htk : tokenizeCore rest <;> simp [Expr.toks, Except.map]
    | Binary l op r =>
      obtain ⟨hokl, hop, hokr⟩ := hok
      rcases hop with h | h | h | h | h <;> subst h
      · have hle' : (Expr.fmtChars l).length ≤ n ∧ (Expr.fmtChars r).length ≤ n := by
          rw [show Expr.fmtChars (.Binary l Token.Plus r) =
              Expr.fmtChars l ++ ('+' :: Expr.fmtChars r) from by
            simp [Expr.fmtChars, Token.fmtChars]] at hle
          simp [List.length_append] at hle
          omega
        rw [show Expr.fmtChars (.Binary l Token.Plus r) ++ rest =
            Expr.fmtChars l ++ ('+' :: (Expr.fmtChars r ++ rest)) from by
          simp [Expr.fmtChars, Token.fmtChars]]
        rw [ih l hle'.1 hokl ('+' :: (Expr.fmtChars r ++ rest))
          (mkFmtBoundary _ (by decide) (by decide) (by decide))]
        rw [tokenizeCore_plusc]
        rw [ih r hle'.2 hokr rest hb]
        cases htk : tokenizeCore rest <;> simp [Expr.toks, Except.map]
      · have hle' : (Expr.fmtChars l).length ≤ n ∧ (Expr.fmtChars r).length ≤ n := by
          rw [show Expr.fmtChars (.Binary l Token.Minus r) =
              Expr.fmtChars l ++ ('-' :: Expr.fmtChars r) from by
            simp [Expr.fmtChars, Token.fmtChars]] at hle
          simp [List.length_append] at hle
          omega
        rw [show Expr.fmtChars (.Binary l Token.Minus r) ++ rest =
            Expr.fmtChars l ++ ('-' :: (Expr.fmtChars r ++ rest)) from by
          simp [Expr.fmtChars, Token.fmtChars]]
        rw [ih l hle'.1 hokl ('-' :: (Expr.fmtChars r ++ rest))
          (mkFmtBoundary _ (by decide) (by decide) (by decide))]
        rw [tokenizeCore_minusc]
        rw [ih r hle'.2 hokr rest hb]
        cases htk : tokenizeCore rest <;> simp [Expr.toks, Except.map]
      · have hle' : (Expr.fmtChars l).length ≤ n ∧ (Expr.fmtChars r).length ≤ n := by
          rw [show Expr.fmtChars (.Binary l Token.Div r) =
              Expr.fmtChars l ++ ('/' :: Expr.fmtChars r) from by
            simp [Expr.fmtChars, Token.fmtChars]] at hle
          simp [List.length_append] at hle
          omega
        rw [show Expr.fmtChars (.Binary l Token.Div r) ++ rest =
            Expr.fmtChars l ++ ('/' :: (Expr.fmtChars r ++ rest)) from by
          simp [Expr.fmtChars, Token.fmtChars]]
        rw [ih l hle'.1 hokl ('/' :: (Expr.fmtChars r ++ rest))
          (mkFmtBoundary _ (by decide) (by decide) (by decide))]
        rw [tokenizeCore_divc]
        rw [ih r hle'.2 hokr rest hb]
        cases htk : tokenizeCore rest <;> simp [Expr.toks, Except.map]
      · have hle' : (Expr.fmtChars l).length ≤ n ∧ (Expr.fmtChars r).length ≤ n := by
          rw [show Expr.fmtChars (.Binary l Token.Mult r) =
              Expr.fmtChars l ++ ('*' :: Expr.fmtChars r) from by
            simp [Expr.fmtChars, Token.fmtChars]] at hle
          simp [List.length_append] at hle
          omega
        rw [show Expr.fmtChars (.Binary l Token.Mult r) ++ rest =
            Expr.fmtChars l ++ ('*' :: (Expr.fmtChars r ++ rest)) from by
          simp [Expr.fmtChars, Token.fmtChars]]
        rw [ih l hle'.1 hokl ('*' :: (Expr.fmtChars r ++ rest))
          (mkFmtBoundary _ (by decide) (by decide) (by decide))]
        rw [tokenizeCore_multc]
        rw [ih r hle'.2 hokr rest hb]
        cases htk : tokenizeCore rest <;> simp [Expr.toks, Except.map]
      · have hle' : (Expr.fmtChars l).length ≤ n ∧ (Expr.fmtChars r).length ≤ n := by
          rw [show Expr.fmtChars (.Binary l Token.Mod r) =
              Expr.fmtChars l ++ ('%' :: Expr.fmtChars r) from by
            simp [Expr.fmtChars, Token.fmtChars]] at hle
          simp [List.length_append] at hle
          omega
        rw [show Expr.fmtChars (.Binary l Token.Mod r) ++ rest =
            Expr.fmtChars l ++ ('%' :: (Expr.fmtChars r ++ rest)) from by
          simp [Expr.fmtChars, Token.fmtChars]]
        rw [ih l hle'.1 hokl ('%' :: (Expr.fmtChars r ++ rest))
          (mkFmtBoundary _ (by decide) (by decide) (by decide))]
        rw [tokenizeCore_modc]
        rw [ih r hle'.2 hokr rest hb]
        cases htk : tokenizeCore rest <;> simp [Expr.toks, Except.map]
    | Exponent b e' =>
      obtain ⟨hokb, hoke⟩ := hok
      have hle' : (Expr.fmtChars b).length ≤ n ∧ (Expr.fmtChars e').length ≤ n := by
        rw [show Expr.fmtChars (.Exponent b e') =
            Expr.fmtChars b ++ ('^' :: Expr.fmtChars e') from by
          simp [Expr.fmtChars]] at hle
        simp [List.length_append] at hle
        omega
      rw [show Expr.fmtChars (.Exponent b e') ++ rest =
          Expr.fmtChars b ++ ('^' :: (Expr.fmtChars e' ++ rest)) from by
        simp [Expr.fmtChars]]
      rw [ih b hle'.1 hokb ('^' :: (Expr.fmtChars e' ++ rest))
        (mkFmtBoundary _ (by decide) (by decide) (by decide))]
      rw [tokenizeCore_powc]
      rw [ih e' hle'.2 hoke rest hb]
      cases htk : tokenizeCore rest <;> simp [Expr.toks, Except.map]
    | Func f a =>
      obtain ⟨hf, hoka⟩ := hok
      cases f with
      | Sin =>
        have hle' : (Expr.fmtChars a).length ≤ n := by
          rw [show Expr.fmtChars (.Func .Sin a) =
              's' :: 'i' :: 'n' :: ('(' :: (Expr.fmtChars a ++ [')'])) from by
            simp [Expr.fmtChars, Func.fmtChars]] at hle
          simp at hle
          omega
        rw [show Expr.fmtChars (.Func .Sin a) ++ rest =
            's' :: 'i' :: 'n' :: ('(' :: (Expr.fmtChars a ++ (')' :: rest))) from by
          simp [Expr.fmtChars, Func.fmtChars]]
        rw [tokenizeCore_sin _
          (mkFmtBoundary _ (by decide) (by decide) (by decide))]
        rw [tokenizeCore_lparc]
        rw [ih a hle' hoka (')' :: rest)
          (mkFmtBoundary _ (by decide) (by decide) (by decide))]
        rw [tokenizeCore_rparc]
        cases htk : tokenizeCore rest <;> simp [Expr.toks, funcToks, Except.map]
      | Cos =>
        have hle' : (Expr.fmtChars a).length ≤ n := by
          rw [show Expr.fmtChars (.Func .Cos a) =
              'c' :: 'o' :: 's' :: ('(' :: (Expr.fmtChars a ++ [')'])) from by
            simp [Expr.fmtChars, Func.fmtChars]] at hle
          simp at hle
          omega
        rw [show Expr.fmtChars (.Func .Cos a) ++ rest =
            'c' :: 'o' :: 's' :: ('(' :: (Expr.fmtChars a ++ (')' :: rest))) from by
          simp [Expr.fmtChars, Func.fmtChars]]
        rw [tokenizeCore_cos _
          (mkFmtBoundary _ (by decide) (by decide) (by decide))]
        rw [tokenizeCore_lparc]
        rw [ih a hle' hoka (')' :: rest)
          (mkFmtBoundary _ (by decide) (by decide) (by decide))]
        rw [tokenizeCore_rparc]
        cases htk : tokenizeCore rest <;> simp [Expr.toks, funcToks, Except.map]
      | Tan =>
        have hle' : (Expr.fmtChars a).length ≤ n := by
          rw [show Expr.fmtChars (.Func .Tan a) =
              't' :: 'a' :: 'n' :: ('(' :: (Expr.fmtChars a ++ [')'])) from by
            simp [Expr.fmtChars, Func.fmtChars]] at hle
          simp at hle
          omega
        rw [show Expr.fmtChars (.Func .Tan a) ++ rest =
            't' :: 'a' :: 'n' :: ('(' :: (Expr.fmtChars a ++ (')' :: rest))) from by
          simp [Expr.fmtChars, Func.fmtChars]]
        rw [tokenizeCore_tan _
          (mkFmtBoundary _ (by decide) (by decide) (by decide))]
        rw [tokenizeCore_lparc]
        rw [ih a hle' hoka (')' :: rest)
          (mkFmtBoundary _ (by decide) (by decide) (by decide))]
        rw [tokenizeCore_rparc]
        cases htk : tokenizeCore rest <;> simp [Expr.toks, funcToks, Except.map]
      | Ln =>
        have hle' : (Expr.fmtChars a).length ≤ n := by
          rw [show Expr.fmtChars (.Func .Ln a) =
              'l' :: 'n' :: ('(' :: (Expr.fmtChars a ++ [')'])) from by
            simp [Expr.fmtChars, Func.fmtChars]] at hle
          simp at hle
          omega
        rw [show Expr.fmtChars (.Func .Ln a) ++ rest =
            'l' :: 'n' :: ('(' :: (Expr.fmtChars a ++ (')' :: rest))) from by
          simp [Expr.fmtChars, Func.fmtChars]]
        rw [tokenizeCore_ln _
          (mkFmtBoundary _ (by decide) (by decide) (by decide))]
        rw [tokenizeCore_lparc]
        rw [ih a hle' hoka (')' :: rest)
          (mkFmtBoundary _ (by decide) (by decide) (by decide))]
        rw [tokenizeCore_rparc]
        cases htk : tokenizeCore rest <;> simp [Expr.toks, funcToks, Except.map]
      | Log base => exact hf.elim
    | Ident name => exact hok.elim
    | Call name args => exact hok.elim

/-! ### Concrete pipeline evaluations

Tokenizer, parser, interpreter and `App::eval` results on the specific
inputs the spec's examples and error scenarios use.  Each is proved by
evaluating the executable definitions through their equation lemmas. -/

theorem tk232 : tokenize ['2', ' ', '^', ' ', '3', ' ', '^', ' ', '2'] =
    .ok [Token.Num 2, Token.Power, Token.Num 3, Token.Power, Token.Num 2, Token.Eoe] := by
  simp [tokenize, tokenizeCore, numVal, digitsVal, classifyIdent, isNumChar,
    isIdentChar, funcNames, Except.map, List.splitOn, List.splitOnP,
    List.splitOnP.go]

theorem tk232n : tokenize ['2', '^', '3', '^', '2'] =
    .ok [Token.Num 2, Token.Power, Token.Num 3, Token.Power, Token.Num 2, Token.Eoe] := by
  simp [tokenize, tokenizeCore, numVal, digitsVal, classifyIdent, isNumChar,
    isIdentChar, funcNames, Except.map, List.splitOn, List.splitOnP,
    List.splitOnP.go]

theorem tk123 : tokenize ['1', ' ', '+', ' ', '2', ' ', '*', ' ', '3'] =
    .ok [Token.Num 1, Token.Plus, Token.Num 2, Token.Mult, Token.Num 3, Token.Eoe] := by
  simp [tokenize, tokenizeCore, numVal, digitsVal, classifyIdent, isNumChar,
    isIdentChar, funcNames, Except.map, List.splitOn, List.splitOnP,
    List.splitOnP.go]

theorem tkp123 : tokenize ['(', '1', ' ', '+', ' ', '2', ')', ' ', '*', ' ', '3'] =
    .ok [Token.LParen, Token.Num 1, Token.Plus, Token.Num 2, Token.RParen,
      Token.Mult, Token.Num 3, Token.Eoe] := by
  simp [tokenize, tokenizeCore, numVal, digitsVal, classifyIdent, isNumChar,
    isIdentChar, funcNames, Except.map, List.splitOn, List.splitOnP,
    List.splitOnP.go]

theorem tk7 : tokenize ['7'] = .ok [Token.Num 7, Token.Eoe] := by
  simp [tokenize, tokenizeCore, numVal, digitsVal, classifyIdent, isNumChar,
    isIdentChar, funcNames, Except.map, List.splitOn, List.splitOnP,
    List.splitOnP.go]

theorem tkx : tokenize ['x'] = .ok [Token.Ident "x", Token.Eoe] := by
  simp [tokenize, tokenizeCore, numVal, digitsVal, classifyIdent, isNumChar,
    isIdentChar, funcNames, Except.map, List.splitOn, List.splitOnP,
    List.splitOnP.go]

theorem tklet : tokenize ['l', 'e', 't', ' ', 'y', ' ', '=', ' ', 'x'] =
    .ok [Token.LetKw, Token.Ident "y", Token.Equal, Token.Ident "x", Token.Eoe] := by
  simp [tokenize, tokenizeCore, numVal, digitsVal, classifyIdent, isNumChar,
    isIdentChar, funcNames, Except.map, List.splitOn, List.splitOnP,
    List.splitOnP.go]

theorem tkhash : tokenize ['#'] = .error "Unrecognized character" := by
  simp [tokenize, tokenizeCore, numVal, digitsVal, classifyIdent, isNumChar,
    isIdentChar, funcNames, Except.map, List.splitOn, List.splitOnP,
    List.splitOnP.go]

theorem tklp : tokenize ['('] = .ok [Token.LParen, Token.Eoe] := by
  simp [tokenize, tokenizeCore, numVal, digitsVal, classifyIdent, isNumChar,
    isIdentChar, funcNames, Except.map, List.splitOn, List.splitOnP,
    List.splitOnP.go]

theorem pe1 : runExpression [] [Token.Num 1, Token.Eoe] =
    .ok (.Num 1) [Token.Eoe] := by
  simp [runExpression_eq, runTerm_eq, runTermLoop_eq, runFactor_eq,
    runFactorLoop_eq, runExponent_eq, runExponentLoop_eq, runNegative_eq,
    runPrimary_eq]

theorem pe7 : runExpression [] [Token.Num 7, Token.Eoe] =
    .ok (.Num 7) [Token.Eoe] := by
  simp [runExpression_eq, runTerm_eq, runTermLoop_eq, runFactor_eq,
    runFactorLoop_eq, runExponent_eq, runExponentLoop_eq, runNegative_eq,
    runPrimary_eq]

theorem pex : runExpression [] [Token.Ident "x", Token.Eoe] =
    .ok (.Ident "x") [Token.Eoe] := by
  simp [runExpression_eq, runTerm_eq, runTermLoop_eq, runFactor_eq,
    runFactorLoop_eq, runExponent_eq, runExponentLoop_eq, runNegative_eq,
    runPrimary_eq]

theorem peeoe : runExpression [] [Token.Eoe] =
    .perr ⟨Token.Eoe, "Expected expression"⟩ := by
  simp [runExpression_eq, runTerm_eq, runTermLoop_eq, runFactor_eq,
    runFactorLoop_eq, runExponent_eq, runExponentLoop_eq, runNegative_eq,
    runPrimary_eq]

theorem peplus : runExpression [] [Token.Num 1, Token.Plus, Token.Eoe] =
    .perr ⟨Token.Eoe, "Expected expression"⟩ := by
  simp [runExpression_eq, runTerm_eq, runTermLoop_eq, runFactor_eq,
    runFactorLoop_eq, runExponent_eq, runExponentLoop_eq, runNegative_eq,
    runPrimary_eq]

theorem penn : runExpression [] [Token.Num 1, Token.Num 2, Token.Eoe] =
    .ok (.Num 1) [Token.Num 2, Token.Eoe] := by
  simp [runExpression_eq, runTerm_eq, runTermLoop_eq, runFactor_eq,
    runFactorLoop_eq, runExponent_eq, runExponentLoop_eq, runNegative_eq,
    runPrimary_eq]

theorem pelp5 : runExpression [] [Token.LParen, Token.Num 5, Token.Eoe] =
    .perr ⟨Token.RParen, "Missing closing parentheses"⟩ := by
  simp [runExpression_eq, runTerm_eq, runTermLoop_eq, runFactor_eq,
    runFactorLoop_eq, runExponent_eq, runExponentLoop_eq, runNegative_eq,
    runPrimary_eq]

theorem pepipe5 : runExpression [] [Token.Pipe, Token.Num 5, Token.Eoe] =
    .perr ⟨Token.Pipe, "Missing closing pipe"⟩ := by
  simp [runExpression_eq, runTerm_eq, runTermLoop_eq, runFactor_eq,
    runFactorLoop_eq, runExponent_eq, runExponentLoop_eq, runNegative_eq,
    runPrimary_eq]

theorem pelp : runExpression [] [Token.LParen, Token.Eoe] =
    .perr ⟨Token.Eoe, "Expected expression"⟩ := by
  simp [runExpression_eq, runTerm_eq, runTermLoop_eq, runFactor_eq,
    runFactorLoop_eq, runExponent_eq, runExponentLoop_eq, runNegative_eq,
    runPrimary_eq]

theorem pelog : runExpression [] [Token.Func "log", Token.Pipe, Token.Eoe] =
    .perr ⟨Token.Func "log", "Missing base for log function"⟩ := by
  simp [runExpression_eq, runTerm_eq, runTermLoop_eq, runFactor_eq,
    runFactorLoop_eq, runExponent_eq, runExponentLoop_eq, runNegative_eq,
    runPrimary_eq]

theorem pe232 : runExpression []
    [Token.Num 2, Token.Power, Token.Num 3, Token.Power, Token.Num 2, Token.Eoe] =
    .ok (.Exponent (.Exponent (.Num 2) (.Num 3)) (.Num 2)) [Token.Eoe] := by
  have h := parseExpr_toks
    (Gram.ft (Gram.ef (Gram.expo (Gram.expo (Gram.ne (Gram.pn (Gram.num 2)))
      (Gram.pn (Gram.num 3))) (Gram.pn (Gram.num 2)))))
    [] [Token.Eoe] (by decide)
  simpa [parseExpr, Expr.toks] using h

theorem pe123 : runExpression []
    [Token.Num 1, Token.Plus, Token.Num 2, Token.Mult, Token.Num 3, Token.Eoe] =
    .ok (.Binary (.Num 1) Token.Plus (.Binary (.Num 2) Token.Mult (.Num 3)))
      [Token.Eoe] := by
  have h := parseExpr_toks
    (Gram.term (Gram.ft (Gram.ef (Gram.ne (Gram.pn (Gram.num 1))))) (Or.inl rfl)
      (Gram.fact (Gram.ef (Gram.ne (Gram.pn (Gram.num 2)))) (Or.inr (Or.inl rfl))
        (Gram.ne (Gram.pn (Gram.num 3)))))
    [] [Token.Eoe] (by decide)
  simpa [parseExpr, Expr.toks] using h

theorem pep123 : runExpression []
    [Token.LParen, Token.Num 1, Token.Plus, Token.Num 2, Token.RParen,
      Token.Mult, Token.Num 3, Token.Eoe] =
    .ok (.Binary (.Grouping (.Binary (.Num 1) Token.Plus (.Num 2))) Token.Mult
      (.Num 3)) [Token.Eoe] := by
  have h := parseExpr_toks
    (Gram.ft (Gram.fact
      (Gram.ef (Gram.ne (Gram.pn (Gram.group
        (Gram.term (Gram.ft (Gram.ef (Gram.ne (Gram.pn (Gram.num 1)))))
          (Or.inl rfl) (Gram.ef (Gram.ne (Gram.pn (Gram.num 2)))))))))
      (Or.inr (Or.inl rfl)) (Gram.ne (Gram.pn (Gram.num 3)))))
    [] [Token.Eoe] (by decide)
  simpa [parseExpr, Expr.toks] using h

theorem ps232 : parseStmt
    [Token.Num 2, Token.Power, Token.Num 3, Token.Power, Token.Num 2, Token.Eoe] =
    .ok (Stmt.Expr (.Exponent (.Exponent (.Num 2) (.Num 3)) (.Num 2))) [Token.Eoe] := by
  simp [parseStmt, pe232]

theorem ps123 : parseStmt
    [Token.Num 1, Token.Plus, Token.Num 2, Token.Mult, Token.Num 3, Token.Eoe] =
    .ok (Stmt.Expr (.Binary (.Num 1) Token.Plus
      (.Binary (.Num 2) Token.Mult (.Num 3)))) [Token.Eoe] := by
  simp [parseStmt, pe123]

theorem psp123 : parseStmt
    [Token.LParen, Token.Num 1, Token.Plus, Token.Num 2, Token.RParen,
      Token.Mult, Token.Num 3, Token.Eoe] =
    .ok (Stmt.Expr (.Binary (.Grouping (.Binary (.Num 1) Token.Plus (.Num 2)))
      Token.Mult (.Num 3))) [Token.Eoe] := by
  simp [parseStmt, pep123]

theorem ps7 : parseStmt [Token.Num 7, Token.Eoe] =
    .ok (Stmt.Expr (.Num 7)) [Token.Eoe] := by
  simp [parseStmt, pe7]

theorem psx : parseStmt [Token.Ident "x", Token.Eoe] =
    .ok (Stmt.Expr (.Ident "x")) [Token.Eoe] := by
  simp [parseStmt, pex]

theorem pslet : parseStmt
    [Token.LetKw, Token.Ident "y", Token.Equal, Token.Ident "x", Token.Eoe] =
    .ok (Stmt.Assign "y" (.Ident "x")) [Token.Eoe] := by
  simp [parseStmt, pex]

theorem pslp : parseStmt [Token.LParen, Token.Eoe] =
    .perr ⟨Token.Eoe, "Expected expression"⟩ := by
  simp [parseStmt, pelp]

theorem interp232 (prim : Prim) (it : Interp) :
    interpExpr prim it 10
      (.Exponent (.Exponent (.Num 2) (.Num 3)) (.Num 2)) = .ok 64 := by
  norm_num [interpExpr, ratPow, bind, Except.bind]

theorem interp123 (prim : Prim) (it : Interp) :
    interpExpr prim it 10
      (.Binary (.Num 1) Token.Plus (.Binary (.Num 2) Token.Mult (.Num 3))) =
      .ok 7 := by
  norm_num [interpExpr, bind, Except.bind]

theorem interpp123 (prim : Prim) (it : Interp) :
    interpExpr prim it 10
      (.Binary (.Grouping (.Binary (.Num 1) Token.Plus (.Num 2))) Token.Mult
        (.Num 3)) = .ok 9 := by
  norm_num [interpExpr, bind, Except.bind]

theorem interpx (prim : Prim) :
    interpExpr prim (Interp.new.define "ans" (Value.Num 7)) 10 (.Ident "x") =
      .error "Unknown variable: x" := by
  simp [interpExpr, Interp.define, Interp.new]

theorem interpx0 (prim : Prim) :
    interpExpr prim Interp.new 10 (.Ident "x") =
      .error "Unknown variable: x" := by
  simp [interpExpr, Interp.new]

theorem ratStr64 : ratStr 64 = "64" := by
  simp [ratStr, ratChars, natChars, natDigits, digitChar]
  decide

theorem ratStr7 : ratStr 7 = "7" := by
  simp [ratStr, ratChars, natChars, natDigits, digitChar]
  decide

theorem ratStr9 : ratStr 9 = "9" := by
  simp [ratStr, ratChars, natChars, natDigits, digitChar]
  decide

theorem app232 (prim : Prim) :
    (App.runLine prim 10 App.new "2 ^ 3 ^ 2").output = some "64" ∧
    (App.runLine prim 10 App.new "2 ^ 3 ^ 2").err = none := by
  constructor <;>
    simp [App.runLine, App.eval, App.new, tk232, ps232,
      interp232 prim Interp.new, ratStr64]

theorem app123 (prim : Prim) :
    (App.runLine prim 10 App.new "1 + 2 * 3").output = some "7" ∧
    (App.runLine prim 10 App.new "1 + 2 * 3").err = none := by
  constructor <;>
    simp [App.runLine, App.eval, App.new, tk123, ps123,
      interp123 prim Interp.new, ratStr7]

theorem appp123 (prim : Prim) :
    (App.runLine prim 10 App.new "(1 + 2) * 3").output = some "9" ∧
    (App.runLine prim 10 App.new "(1 + 2) * 3").err = none := by
  constructor <;>
    simp [App.runLine, App.eval, App.new, tkp123, psp123,
      interpp123 prim Interp.new, ratStr9]

theorem app7 (prim : Prim) : App.runLine prim 10 App.new "7" =
    { input := "", output := some "7", err := none,
      interpreter := Interp.new.define "ans" (Value.Num 7),
      exprHistory := [.Num 7], exprSelector := 0 } := by
  simp [App.runLine, App.eval, App.new, tk7, ps7, interpExpr, ratStr7]

/-! ### The claims -/

/-- C1: Exponentiation parses as a left fold: for all grammatical operands
`a`, `b`, `c`, the token sequence of `a ^ b ^ c` parses to
`Exponent(Exponent(a, b), c)`, and the line `2 ^ 3 ^ 2` evaluates to `64`
(not the right-associative `512`). -/
theorem exponent_left_fold_C1 :
    (∀ (a b c : Expr) (vals : Vals) (rest : List Token),
        Gram Lv.expo a → Gram Lv.neg b → Gram Lv.neg c →
        stopsAt Lv.term rest = true →
        parseExpr vals
          (a.toks ++ (Token.Power :: (b.toks ++ (Token.Power :: (c.toks ++ rest))))) =
          .ok (.Exponent (.Exponent a b) c) rest) ∧
    ∀ prim : Prim,
      (App.runLine prim 10 App.new "2 ^ 3 ^ 2").output = some "64" ∧
      (App.runLine prim 10 App.new "2 ^ 3 ^ 2").err = none := by
  constructor
  · intro a b c vals rest ha hb hc hstop
    have h := parseExpr_toks
      (Gram.ft (Gram.ef (Gram.expo (Gram.expo ha hb) hc))) vals rest hstop
    simpa [parseExpr, Expr.toks, List.append_assoc] using h
  · intro prim
    exact app232 prim

theorem exponent_left_fold_C1_witness :
    parseExpr []
      [Token.Num 2, Token.Power, Token.Num 3, Token.Power, Token.Num 2, Token.Eoe] =
      .ok (.Exponent (.Exponent (.Num 2) (.Num 3)) (.Num 2)) [Token.Eoe] ∧
    (App.runLine (fun _ _ => 0) 10 App.new "2 ^ 3 ^ 2").output = some "64" := by
  constructor
  · have h := exponent_left_fold_C1.1 (.Num 2) (.Num 3) (.Num 2) [] [Token.Eoe]
      (Gram.ne (Gram.pn (Gram.num 2))) (Gram.pn (Gram.num 3))
      (Gram.pn (Gram.num 2)) (by decide)
    simpa [Expr.toks] using h
  · exact (exponent_left_fold_C1.2 (fun _ _ => 0)).1

/-- C2: the claimed output/error exclusivity of `App::eval` does not hold in
the code: the bare-expression evaluation-error branch sets `err` without
clearing `output` (a stale success stays visible beside the new error), and
the assignment evaluation-error branch writes the error message into the
`output` field.  After evaluating `7` and then the failing line `x`, both
fields are `Some`; after `let y = x` the error message sits in `output`. -/
theorem eval_exclusivity_C2 (prim : Prim) :
    (App.runLine prim 10 App.new "7").output = some "7" ∧
    (App.runLine prim 10 App.new "7").err = none ∧
    (App.runLine prim 10 (App.runLine prim 10 App.new "7") "x").output = some "7" ∧
    (App.runLine prim 10 (App.runLine prim 10 App.new "7") "x").err =
      some "Unknown variable: x" ∧
    (App.runLine prim 10 App.new "let y = x").output = some "Unknown variable: x" ∧
    (App.runLine prim 10 App.new "let y = x").err = none := by
  have h1 := app7 prim
  refine ⟨by rw [h1], by rw [h1], ?_, ?_, ?_, ?_⟩
  · rw [h1]
    simp [App.runLine, App.eval, tkx, psx, interpx prim]
  · rw [h1]
    simp [App.runLine, App.eval, tkx, psx, interpx prim]
  · simp [App.runLine, App.eval, App.new, tklet, pslet, interpx0 prim]
  · simp [App.runLine, App.eval, App.new, tklet, pslet, interpx0 prim]

theorem eval_exclusivity_C2_witness :
    (App.runLine (fun _ _ => 0) 10 (App.runLine (fun _ _ => 0) 10 App.new "7") "x").output =
      some "7" ∧
    (App.runLine (fun _ _ => 0) 10 (App.runLine (fun _ _ => 0) 10 App.new "7") "x").err =
      some "Unknown variable: x" :=
  ⟨(eval_exclusivity_C2 (fun _ _ => 0)).2.2.1,
   (eval_exclusivity_C2 (fun _ _ => 0)).2.2.2.1⟩

/-- C3 (amended): every parse error carries one of the seven fixed
diagnostic messages, and the token it carries is determined by the message:
the three missing-delimiter messages store the EXPECTED delimiter token —
`)`, `|`, `(` respectively — fabricated by the failed `consume` (not the
token actually present), while the other four messages ("Unknown variable",
"Unknown function", "Missing base for log function", "Expected expression")
store a token of the input (for the first three of these, the offending
token peeked at the failure position; for the log-base message, the `log`
function token read just before the missing base). -/
theorem parse_err_fixed_msgs_C3 (ts : List Token) (vals : Vals) (er : ParseErr)
    (h : parseExpr vals ts = .perr er) :
    er.msg ∈ parseMsgs ∧
    (er.msg = "Missing closing parentheses" → er.token = Token.RParen) ∧
    (er.msg = "Missing closing pipe" → er.token = Token.Pipe) ∧
    (er.msg = "Missing opening parentheses" → er.token = Token.LParen) ∧
    ((er.msg = "Unknown variable" ∨ er.msg = "Unknown function" ∨
        er.msg = "Missing base for log function" ∨
        er.msg = "Expected expression") →
      er.token ∈ ts) := by
  have hinv := (parseInv ts.length ts (le_refl _) vals).2.2.2.2.2.1.2.1 er h
  exact ⟨hinv.1, hinv.2.1, hinv.2.2.1, hinv.2.2.2.1, hinv.2.2.2.2⟩

theorem parse_err_fixed_msgs_C3_witness :
    ("Missing closing parentheses" ∈ parseMsgs ∧
      Token.RParen = Token.RParen) ∧
    ("Missing base for log function" ∈ parseMsgs ∧
      Token.Func "log" ∈ [Token.Func "log", Token.Pipe, Token.Eoe]) :=
  ⟨⟨(parse_err_fixed_msgs_C3 [Token.LParen, Token.Num 5, Token.Eoe] []
        ⟨Token.RParen, "Missing closing parentheses"⟩ pelp5).1,
    (parse_err_fixed_msgs_C3 [Token.LParen, Token.Num 5, Token.Eoe] []
        ⟨Token.RParen, "Missing closing parentheses"⟩ pelp5).2.1 rfl⟩,
   ⟨(parse_err_fixed_msgs_C3 [Token.Func "log", Token.Pipe, Token.Eoe] []
        ⟨Token.Func "log", "Missing base for log function"⟩ pelog).1,
    (parse_err_fixed_msgs_C3 [Token.Func "log", Token.Pipe, Token.Eoe] []
        ⟨Token.Func "log", "Missing base for log function"⟩ pelog).2.2.2.2
      (Or.inr (Or.inr (Or.inl rfl)))⟩⟩

theorem parse_err_fixed_msgs_C3_cex :
    runExpression [] [Token.LParen, Token.Num 5, Token.Eoe] =
      .perr ⟨Token.RParen, "Missing closing parentheses"⟩ ∧
    Token.RParen ∉ [Token.LParen, Token.Num 5, Token.Eoe] :=
  ⟨pelp5, by decide⟩

/-- C4 (amended): formatting round-trips through tokenize-and-parse for
every tree the grammar itself can produce (`Gram Lv.term`) whose literals
are nonnegative integers and which uses no `log` built-in (`fmtOk`): the
formatted text tokenizes to exactly the tree's token sequence plus the
sentinel, and parsing returns the identical tree.  Without the
grammar-shape restriction the property fails: a right-nested `Exponent`
tree prints as `2^3^2`, which re-parses left-folded. -/
theorem format_round_trip_C4 (e : Expr) (hg : Gram Lv.term e) (hok : fmtOk e)
    (vals : Vals) :
    tokenize (Expr.format e).data = .ok (e.toks ++ [Token.Eoe]) ∧
    parseExpr vals (e.toks ++ [Token.Eoe]) = .ok e [Token.Eoe] := by
  constructor
  · show tokenize (Expr.fmtChars e) = _
    have h := tokenizeFmt (Expr.fmtChars e).length e (le_refl _) hok [] trivial
    rw [List.append_nil] at h
    have h0 : tokenizeCore ([] : List Char) = .ok [] := by simp [tokenizeCore]
    rw [h0] at h
    rw [tokenize, h]
    simp [Except.map]
  · exact parseExpr_toks hg vals [Token.Eoe] (by decide)

theorem format_round_trip_C4_witness :
    tokenize (Expr.format (.Binary (.Num 1) Token.Plus (.Num 2))).data =
      .ok [Token.Num 1, Token.Plus, Token.Num 2, Token.Eoe] ∧
    parseExpr [] [Token.Num 1, Token.Plus, Token.Num 2, Token.Eoe] =
      .ok (.Binary (.Num 1) Token.Plus (.Num 2)) [Token.Eoe] := by
  have h := format_round_trip_C4 (.Binary (.Num 1) Token.Plus (.Num 2))
    (Gram.term (Gram.ft (Gram.ef (Gram.ne (Gram.pn (Gram.num 1))))) (Or.inl rfl)
      (Gram.ef (Gram.ne (Gram.pn (Gram.num 2)))))
    ⟨⟨by decide, by decide⟩, Or.inl rfl, ⟨by decide, by decide⟩⟩ []
  constructor
  · have h1 := h.1
    simpa [Expr.toks] using h1
  · have h2 := h.2
    simpa [Expr.toks] using h2

theorem format_round_trip_C4_cex :
    (Expr.format (.Exponent (.Num 2) (.Exponent (.Num 3) (.Num 2)))).data =
      ['2', '^', '3', '^', '2'] ∧
    tokenize ['2', '^', '3', '^', '2'] =
      .ok [Token.Num 2, Token.Power, Token.Num 3, Token.Power, Token.Num 2,
        Token.Eoe] ∧
    runExpression []
      [Token.Num 2, Token.Power, Token.Num 3, Token.Power, Token.Num 2, Token.Eoe] =
      .ok (.Exponent (.Exponent (.Num 2) (.Num 3)) (.Num 2)) [Token.Eoe] ∧
    Expr.Exponent (.Exponent (.Num 2) (.Num 3)) (.Num 2) ≠
      .Exponent (.Num 2) (.Exponent (.Num 3) (.Num 2)) := by
  refine ⟨?_, tk232n, pe232, by simp⟩
  show Expr.fmtChars (.Exponent (.Num 2) (.Exponent (.Num 3) (.Num 2))) = _
  simp [Expr.fmtChars, ratChars, natChars, natDigits, digitChar]
  decide

/-- C5: with the `Eoe` sentinel present in the input the parser never
panics (never reads an index out of bounds); in particular the empty input
and inputs missing a required closing parenthesis or pipe return a
`ParseErr` — an error result, not a crash and not a partial parse. -/
theorem parse_safety_C5 :
    (∀ (ts : List Token) (vals : Vals), Token.Eoe ∈ ts →
        parseExpr vals ts ≠ .crash) ∧
    parseExpr [] [Token.Eoe] = .perr ⟨Token.Eoe, "Expected expression"⟩ ∧
    parseExpr [] [Token.LParen, Token.Num 5, Token.Eoe] =
      .perr ⟨Token.RParen, "Missing closing parentheses"⟩ ∧
    parseExpr [] [Token.Pipe, Token.Num 5, Token.Eoe] =
      .perr ⟨Token.Pipe, "Missing closing pipe"⟩ :=
  ⟨fun ts vals h =>
    (parseInv ts.length ts (le_refl _) vals).2.2.2.2.2.1.1 h,
   peeoe, pelp5, pepipe5⟩

theorem parse_safety_C5_witness :
    parseExpr [] [Token.Eoe] ≠ .crash :=
  parse_safety_C5.1 [Token.Eoe] [] (by decide)

/-- C6: `*`, `/`, `%` bind tighter than `+`, `-`, and each level chains
left-associatively: `a + b * c` parses as `Binary(a, +, Binary(b, *, c))`
and `a - b - c` as `Binary(Binary(a, -, b), -, c)`; the line `1 + 2 * 3`
evaluates to `7` and `(1 + 2) * 3` to `9`. -/
theorem precedence_C6 :
    (∀ (a b c : Expr) (vals : Vals) (rest : List Token),
        Gram Lv.term a → Gram Lv.fact b → Gram Lv.expo c →
        stopsAt Lv.term rest = true →
        parseExpr vals
          (a.toks ++ (Token.Plus :: (b.toks ++ (Token.Mult :: (c.toks ++ rest))))) =
          .ok (.Binary a Token.Plus (.Binary b Token.Mult c)) rest) ∧
    (∀ (a b c : Expr) (vals : Vals) (rest : List Token),
        Gram Lv.term a → Gram Lv.fact b → Gram Lv.fact c →
        stopsAt Lv.term rest = true →
        parseExpr vals
          (a.toks ++ (Token.Minus :: (b.toks ++ (Token.Minus :: (c.toks ++ rest))))) =
          .ok (.Binary (.Binary a Token.Minus b) Token.Minus c) rest) ∧
    ∀ prim : Prim,
      (App.runLine prim 10 App.new "1 + 2 * 3").output = some "7" ∧
      (App.runLine prim 10 App.new "1 + 2 * 3").err = none ∧
      (App.runLine prim 10 App.new "(1 + 2) * 3").output = some "9" ∧
      (App.runLine prim 10 App.new "(1 + 2) * 3").err = none := by
  refine ⟨?_, ?_, ?_⟩
  · intro a b c vals rest ha hb hc hstop
    have h := parseExpr_toks
      (Gram.term ha (Or.inl rfl) (Gram.fact hb (Or.inr (Or.inl rfl)) hc))
      vals rest hstop
    simpa [parseExpr, Expr.toks, List.append_assoc] using h
  · intro a b c vals rest ha hb hc hstop
    have h := parseExpr_toks
      (Gram.term (Gram.term ha (Or.inr rfl) hb) (Or.inr rfl) hc)
      vals rest hstop
    simpa [parseExpr, Expr.toks, List.append_assoc] using h
  · intro prim
    exact ⟨(app123 prim).1, (app123 prim).2, (appp123 prim).1, (appp123 prim).2⟩

theorem precedence_C6_witness :
    parseExpr []
      [Token.Num 1, Token.Plus, Token.Num 2, Token.Mult, Token.Num 3, Token.Eoe] =
      .ok (.Binary (.Num 1) Token.Plus (.Binary (.Num 2) Token.Mult (.Num 3)))
        [Token.Eoe] ∧
    parseExpr []
      [Token.Num 1, Token.Minus, Token.Num 2, Token.Minus, Token.Num 3, Token.Eoe] =
      .ok (.Binary (.Binary (.Num 1) Token.Minus (.Num 2)) Token.Minus (.Num 3))
        [Token.Eoe] ∧
    (App.runLine (fun _ _ => 0) 10 App.new "1 + 2 * 3").output = some "7" := by
  refine ⟨?_, ?_, ((precedence_C6.2.2 (fun _ _ => 0))).1⟩
  · have h := precedence_C6.1 (.Num 1) (.Num 2) (.Num 3) [] [Token.Eoe]
      (Gram.ft (Gram.ef (Gram.ne (Gram.pn (Gram.num 1)))))
      (Gram.ef (Gram.ne (Gram.pn (Gram.num 2))))
      (Gram.ne (Gram.pn (Gram.num 3))) (by decide)
    simpa [Expr.toks] using h
  · have h := precedence_C6.2.1 (.Num 1) (.Num 2) (.Num 3) [] [Token.Eoe]
      (Gram.ft (Gram.ef (Gram.ne (Gram.pn (Gram.num 1)))))
      (Gram.ef (Gram.ne (Gram.pn (Gram.num 2))))
      (Gram.ef (Gram.ne (Gram.pn (Gram.num 3)))) (by decide)
    simpa [Expr.toks] using h

/-- C7: a single-letter variable is resolved against the supplied
letter→value map at parse time: a bound letter becomes a plain `Num` node
(never a variable-reference node), an unbound letter fails immediately with
the fixed message "Unknown variable" carrying the variable token. -/
theorem var_resolution_C7 :
    (∀ (vals : Vals) (c : Char) (q : ℚ) (rest : List Token),
        vals.lookup c = some q →
        runPrimary vals (Token.Var c :: rest) = .ok (.Num q) rest) ∧
    (∀ (vals : Vals) (c : Char) (rest : List Token),
        vals.lookup c = none →
        runPrimary vals (Token.Var c :: rest) =
          .perr ⟨Token.Var c, "Unknown variable"⟩) := by
  constructor
  · intro vals c q rest h
    rw [runPrimary_eq]
    simp [h]
  · intro vals c rest h
    rw [runPrimary_eq]
    simp [h]

theorem var_resolution_C7_witness :
    runPrimary [('a', 5)] [Token.Var 'a', Token.Eoe] = .ok (.Num 5) [Token.Eoe] ∧
    runPrimary [] [Token.Var 'a', Token.Eoe] =
      .perr ⟨Token.Var 'a', "Unknown variable"⟩ :=
  ⟨var_resolution_C7.1 [('a', 5)] 'a' 5 [Token.Eoe] (by decide),
   var_resolution_C7.2 [] 'a' [Token.Eoe] rfl⟩

/-- C8: after every `App::eval` call that successfully evaluates a bare
expression or an assignment, the environment maps "ans" to the computed
value. -/
theorem ans_rebound_C8 (prim : Prim) (fuel : ℕ) (st : App) (toks : List Token)
    (htok : tokenize st.input.data = .ok toks) :
    (∀ e rest val, parseStmt toks = .ok (Stmt.Expr e) rest →
        interpExpr prim st.interpreter fuel e = .ok val →
        (App.eval prim fuel st).interpreter.vars "ans" = some (Value.Num val)) ∧
    (∀ name e rest val, parseStmt toks = .ok (Stmt.Assign name e) rest →
        interpExpr prim st.interpreter fuel e = .ok val →
        (App.eval prim fuel st).interpreter.vars "ans" = some (Value.Num val)) := by
  constructor
  · intro e rest val hp hv
    simp only [App.eval, htok, hp, hv]
    simp [Interp.define]
  · intro name e rest val hp hv
    simp only [App.eval, htok, hp, hv]
    by_cases hn : name = "ans" <;> simp [Interp.define, hn]

theorem ans_rebound_C8_witness :
    (App.eval (fun _ _ => 0) 10 { App.new with input := "7" }).interpreter.vars "ans" =
      some (Value.Num 7) :=
  (ans_rebound_C8 (fun _ _ => 0) 10 { App.new with input := "7" }
      [Token.Num 7, Token.Eoe] tk7).1
    (.Num 7) [Token.Eoe] 7 ps7 (by simp [interpExpr])

/-- C9: a failing input line leaves the session state untouched: whether
tokenizing, parsing, or evaluating fails (for a bare expression or for an
assignment), the history list and the whole environment are exactly what
they were before the call. -/
theorem error_frame_C9 (prim : Prim) (fuel : ℕ) (st : App) :
    (∀ msg, tokenize st.input.data = .error msg →
        (App.eval prim fuel st).exprHistory = st.exprHistory ∧
        (App.eval prim fuel st).interpreter = st.interpreter) ∧
    (∀ toks er, tokenize st.input.data = .ok toks → parseStmt toks = .perr er →
        (App.eval prim fuel st).exprHistory = st.exprHistory ∧
        (App.eval prim fuel st).interpreter = st.interpreter) ∧
    (∀ toks e rest msg, tokenize st.input.data = .ok toks →
        parseStmt toks = .ok (Stmt.Expr e) rest →
        interpExpr prim st.interpreter fuel e = .error msg →
        (App.eval prim fuel st).exprHistory = st.exprHistory ∧
        (App.eval prim fuel st).interpreter = st.interpreter) ∧
    (∀ toks name e rest msg, tokenize st.input.data = .ok toks →
        parseStmt toks = .ok (Stmt.Assign name e) rest →
        interpExpr prim st.interpreter fuel e = .error msg →
        (App.eval prim fuel st).exprHistory = st.exprHistory ∧
        (App.eval prim fuel st).interpreter = st.interpreter) := by
  refine ⟨?_, ?_, ?_, ?_⟩
  · intro msg htok
    simp only [App.eval, htok]
    simp [App.setErr]
  · intro toks er htok hp
    simp only [App.eval, htok, hp]
    simp [App.setErr]
  · intro toks e rest msg htok hp hv
    simp only [App.eval, htok, hp, hv]
    simp
  · intro toks name e rest msg htok hp hv
    simp only [App.eval, htok, hp, hv]
    simp

theorem error_frame_C9_witness :
    ((App.eval (fun _ _ => 0) 10 { App.new with input := "#" }).exprHistory =
        ([] : List Expr) ∧
      (App.eval (fun _ _ => 0) 10 { App.new with input := "#" }).interpreter =
        Interp.new) ∧
    ((App.eval (fun _ _ => 0) 10 { App.new with input := "(" }).exprHistory =
        ([] : List Expr) ∧
      (App.eval (fun _ _ => 0) 10 { App.new with input := "(" }).interpreter =
        Interp.new) ∧
    ((App.eval (fun _ _ => 0) 10 { App.new with input := "x" }).exprHistory =
        ([] : List Expr) ∧
      (App.eval (fun _ _ => 0) 10 { App.new with input := "x" }).interpreter =
        Interp.new) ∧
    ((App.eval (fun _ _ => 0) 10 { App.new with input := "let y = x" }).exprHistory =
        ([] : List Expr) ∧
      (App.eval (fun _ _ => 0) 10 { App.new with input := "let y = x" }).interpreter =
        Interp.new) :=
  ⟨(error_frame_C9 (fun _ _ => 0) 10 { App.new with input := "#" }).1
      "Unrecognized character" tkhash,
   (error_frame_C9 (fun _ _ => 0) 10 { App.new with input := "(" }).2.1
      [Token.LParen, Token.Eoe] ⟨Token.Eoe, "Expected expression"⟩ tklp pslp,
   (error_frame_C9 (fun _ _ => 0) 10 { App.new with input := "x" }).2.2.1
      [Token.Ident "x", Token.Eoe] (.Ident "x") [Token.Eoe]
      "Unknown variable: x" tkx psx (by simp [interpExpr, App.new, Interp.new]),
   (error_frame_C9 (fun _ _ => 0) 10 { App.new with input := "let y = x" }).2.2.2
      [Token.LetKw, Token.Ident "y", Token.Equal, Token.Ident "x", Token.Eoe]
      "y" (.Ident "x") [Token.Eoe] "Unknown variable: x" tklet pslet
      (by simp [interpExpr, App.new, Interp.new])⟩

/-- C10 (amended): the parser never checks for the `Eoe` sentinel after a
parse: it accepts a token sequence whose prefix is a complete expression
and silently ignores the trailing tokens — provided the first trailing
token does not continue the expression ([Num 1, Num 2, Eoe] parses to
`Num 1`).  A trailing token that does continue it (an operator) is instead
consumed, so not every completed-prefix input is accepted. -/
theorem trailing_tokens_C10 (e : Expr) (hg : Gram Lv.term e) (vals : Vals)
    (rest : List Token) (hstop : stopsAt Lv.term rest = true) :
    parseExpr vals (e.toks ++ rest) = .ok e rest :=
  parseExpr_toks hg vals rest hstop

theorem trailing_tokens_C10_witness :
    parseExpr [] [Token.Num 1, Token.Num 2, Token.Eoe] =
      .ok (.Num 1) [Token.Num 2, Token.Eoe] := by
  have h := trailing_tokens_C10 (.Num 1)
    (Gram.ft (Gram.ef (Gram.ne (Gram.pn (Gram.num 1))))) []
    [Token.Num 2, Token.Eoe] (by decide)
  simpa [Expr.toks] using h

theorem trailing_tokens_C10_cex :
    runExpression [] [Token.Num 1, Token.Eoe] = .ok (.Num 1) [Token.Eoe] ∧
    runExpression [] [Token.Num 1, Token.Plus, Token.Eoe] =
      .perr ⟨Token.Eoe, "Expected expression"⟩ :=
  ⟨pe1, peplus⟩

end Tc
